import Mathlib

/-!
The request builder of go-curl, `request.go`.

A shallow embedding of `src/request.go` (package `curl`) and of the parts of the Go
standard library it calls, followed by theorems about the builder.

Conventions of the embedding.

* A Go `string` is a byte sequence.  It is embedded as the Lean `String` that has one
  `Char` per byte, so ASCII text is embedded as itself.
* A Go `map[string]T` is embedded as the list of its entries (`GoMap T`); the keys of
  a map are pairwise distinct, which theorems that need it assume as `Nodup`.  The
  order in which a `range` loop visits the entries is chosen by the Go runtime afresh
  for every loop; it is an input of the model (`Run`).
* Pointers to `http.Request` objects are addresses into an explicit heap, because
  `Send` writes through `this.req` and lets `this.Raw` alias it.
* `Send` ends either by `return` or by a runtime panic that its deferred `recover`
  swallows; in the second case Go returns the zero values `(nil, nil)`.
* Everything `Send` does besides changing the builder (printing, building a transport
  request, calling the HTTP client, reading the response) is recorded in a trace.
-/

namespace Curl

/-- Go `error` values, identified by their message. -/
abbrev GoError := String

/-- The entries of a Go `map[string]α`.  A `nil` map and an empty map have no entries;
where the source tells them apart (`PostDataQuery != nil`) the field is an `Option`. -/
abbrev GoMap (α : Type) := List (String × α)

/-! ## `map[string][]string`: `url.Values` and `http.Header` -/

/-- Go's `map[string][]string`, the type under both `url.Values` and `http.Header`. -/
abbrev Values := List (String × List String)

namespace Values

/-- Indexing `v[key]`: the slice stored under `key`, `nil` (no elements) if absent. -/
def get (v : Values) (key : String) : List String :=
  match v with
  | [] => []
  | (k, vs) :: rest => if k = key then vs else get rest key

/-- Assignment `v[key] = vs`. -/
def put (v : Values) (key : String) (vs : List String) : Values :=
  match v with
  | [] => [(key, vs)]
  | (k, ws) :: rest => if k = key then (k, vs) :: rest else (k, ws) :: put rest key vs

/-- The method `func (v Values) Add(key, value string)`: `v[key] = append(v[key], value)`. -/
def Add (v : Values) (key value : String) : Values :=
  v.put key (v.get key ++ [value])

/-- The keys of the map. -/
def keys (v : Values) : List String := v.map Prod.fst

end Values

/-! ## `net/url`: query strings -/

namespace url

/-- Byte-wise lexicographic `a <= b`, the order of Go's string comparison. -/
def bytesLe : List Char → List Char → Bool
  | [], _ => true
  | _ :: _, [] => false
  | a :: as, b :: bs => decide (a.toNat < b.toNat) || (decide (a.toNat = b.toNat) && bytesLe as bs)

/-- Go's `a <= b` on strings. -/
def strLe (a b : String) : Prop := bytesLe a.data b.data = true

instance strLe.decidable : DecidableRel strLe := fun a b =>
  inferInstanceAs (Decidable (bytesLe a.data b.data = true))

/-- The bytes `shouldEscape(c, encodeQueryComponent)` leaves alone: letters, digits and
`-`, `_`, `.`, `~`. -/
def unreserved (c : Char) : Bool :=
  c.isAlphanum || c == '-' || c == '_' || c == '.' || c == '~'

/-- The digit `upperhex[n]`. -/
def upperhex (n : Nat) : Char := "0123456789ABCDEF".data.getD n '0'

/-- The loop of `escape(s, encodeQueryComponent)`: a space becomes `+`, an unreserved
byte stays, any other byte `c` becomes `%` followed by `upperhex[c>>4]`, `upperhex[c&15]`. -/
def escapeBytes : List Char → List Char
  | [] => []
  | c :: cs =>
    if c = ' ' then '+' :: escapeBytes cs
    else if unreserved c then c :: escapeBytes cs
    else '%' :: upperhex (c.toNat / 16) :: upperhex (c.toNat % 16) :: escapeBytes cs

/-- The function `url.QueryEscape`. -/
def QueryEscape (s : String) : String := String.mk (escapeBytes s.data)

/-- The function `ishex`. -/
def ishex (c : Char) : Bool :=
  c.isDigit || ('a' ≤ c && c ≤ 'f') || ('A' ≤ c && c ≤ 'F')

/-- The function `unhex`. -/
def unhex (c : Char) : Nat :=
  if c.isDigit then c.toNat - '0'.toNat
  else if 'a' ≤ c && c ≤ 'f' then c.toNat - 'a'.toNat + 10
  else if 'A' ≤ c && c ≤ 'F' then c.toNat - 'A'.toNat + 10
  else 0

/-- The function `unescape(s, encodeQueryComponent)`: `none` is the `EscapeError` returned
when a `%` is not followed by two hex digits; otherwise `%XY` becomes the byte
`unhex(X)<<4 | unhex(Y)` and `+` becomes a space. -/
def unescapeBytes : List Char → Option (List Char)
  | [] => some []
  | c :: cs =>
    if c = '%' then
      match cs with
      | a :: b :: rest =>
        if ishex a && ishex b then
          (unescapeBytes rest).map (fun t => Char.ofNat (unhex a * 16 + unhex b) :: t)
        else none
      | _ => none
    else if c = '+' then (unescapeBytes cs).map (fun t => ' ' :: t)
    else (unescapeBytes cs).map (fun t => c :: t)

/-- The function `url.QueryUnescape`; `none` stands for a non-nil error. -/
def QueryUnescape (s : String) : Option String := (unescapeBytes s.data).map String.mk

/-- The function `strings.Cut(s, sep)` for a one-byte separator: the text before the
first `sep` and the text after it (empty when there is no `sep`). -/
def cut (sep : Char) : List Char → List Char × List Char
  | [] => ([], [])
  | c :: cs => if c = sep then ([], cs) else ((cut sep cs).1.cons c, (cut sep cs).2)

/-- The successive results of `key, query, _ = strings.Cut(query, "&")`. -/
def segments : List Char → List (List Char)
  | [] => []
  | c :: cs =>
    if c = '&' then [] :: segments cs
    else match segments cs with
      | [] => [[c]]
      | seg :: segs => (c :: seg) :: segs

/-- One round of the loop of `parseQuery` on the segment `key`: a segment that
holds a `;`, is empty, or does not unescape is skipped (the error it sets is dropped by
`Query`); otherwise `m[key] = append(m[key], value)`. -/
def parseSegment (m : Values) (key : List Char) : Values :=
  if key.contains ';' then m
  else if key = [] then m
  else
    match unescapeBytes (cut '=' key).1, unescapeBytes (cut '=' key).2 with
    | some k, some v => m.Add (String.mk k) (String.mk v)
    | _, _ => m

/-- The function `url.ParseQuery`, without the error it returns alongside the values. -/
def ParseQuery (query : String) : Values :=
  (segments query.data).foldl parseSegment []

/-- The keys of a map in the order `slices.Sort` gives them. -/
def sortedKeys (v : Values) : List String := List.insertionSort strLe v.keys

/-- The pairs `Encode` writes, in the order it writes them: for the keys in sorted order,
each value under the key. -/
def pairs (v : Values) : List (String × String) :=
  (sortedKeys v).flatMap (fun k => (v.get k).map (fun x => (k, x)))

/-- The buffer of `Encode` after the given texts were written, with `&` written before
each text but the first (`if buf.Len() > 0 { buf.WriteByte('&') }`). -/
def joinAmp : List (List Char) → List Char
  | [] => []
  | [s] => s
  | s :: rest => s ++ '&' :: joinAmp rest

/-- The text `Encode` writes for one pair: `QueryEscape(k)`, `=`, `QueryEscape(v)`. -/
def encodePair (kx : String × String) : List Char :=
  escapeBytes kx.1.data ++ '=' :: escapeBytes kx.2.data

/-- The method `func (v Values) Encode() string`: for the keys in sorted order, and
for each value under a key, `QueryEscape(key)=QueryEscape(value)`, joined by `&`. -/
def Encode (v : Values) : String :=
  String.mk (joinAmp ((pairs v).map encodePair))

/-- The fields of `url.URL` that the builder's code reads or writes, and the remaining
components of a parsed URL. -/
structure URL where
  Scheme : String
  Host : String
  Path : String
  RawQuery : String
  Fragment : String
deriving DecidableEq, Repr

/-- The method `func (u *URL) Query() Values`: `v, _ := ParseQuery(u.RawQuery)`. -/
def URL.Query (u : URL) : Values := ParseQuery u.RawQuery

end url

/-! ## `net/http`: headers, cookies, requests -/

namespace http

/-- The type `http.Header`, a `map[string][]string`. -/
abbrev Header := Values

/-- The punctuation bytes of an HTTP token: `!#$%&'*+-.^_` and the grave accent, `|`, `~`. -/
def tokenPunct : List Char :=
  ['!', '#', '$', '%', '&', Char.ofNat 39, '*', '+', '-', '.', '^', '_', Char.ofNat 96, '|', '~']

/-- The function `validHeaderFieldByte`: the byte may occur in an HTTP token. -/
def validHeaderFieldByte (c : Char) : Bool := c.isAlphanum || tokenPunct.contains c

/-- The second loop of `canonicalMIMEHeaderKey`: upper case for the first letter and
for a letter after a dash, lower case for every other letter. -/
def canonLoop : Bool → List Char → List Char
  | _, [] => []
  | upper, c :: cs =>
    if upper && c.isLower then Char.ofNat (c.toNat - 32) :: canonLoop false cs
    else if !upper && c.isUpper then Char.ofNat (c.toNat + 32) :: canonLoop false cs
    else c :: canonLoop (c == '-') cs

/-- The function `canonicalMIMEHeaderKey`: a key holding a byte that is neither a token
byte nor a space, or holding a space, is returned as it is; any other key goes through
`canonLoop`. -/
def canonicalMIMEHeaderKey (a : List Char) : List Char :=
  if a.all (fun c => validHeaderFieldByte c || c == ' ') then
    if a.contains ' ' then a else canonLoop true a
  else a

/-- The quick check of `CanonicalMIMEHeaderKey`: `true` when the loop reaches a letter
in the wrong case before it reaches an invalid byte or the end of the key. -/
def needsCanon : Bool → List Char → Bool
  | _, [] => false
  | upper, c :: cs =>
    if !validHeaderFieldByte c then false
    else if upper && c.isLower then true
    else if !upper && c.isUpper then true
    else needsCanon (c == '-') cs

/-- The function `textproto.CanonicalMIMEHeaderKey`. -/
def CanonicalMIMEHeaderKey (s : String) : String :=
  if needsCanon true s.data then String.mk (canonicalMIMEHeaderKey s.data) else s

/-- The method `func (h Header) Set(key, value string)` on a non-nil map:
`h[CanonicalMIMEHeaderKey(key)] = []string{value}`. -/
def Header.Set (h : Header) (key value : String) : Header :=
  Values.put h (CanonicalMIMEHeaderKey key) [value]

/-- The method `func (h Header) Get(key string) string`: the first value stored under the
canonical form of `key`, the empty string if there is none. -/
def Header.Get (h : Header) (key : String) : String :=
  (Values.get h (CanonicalMIMEHeaderKey key)).headD ""

/-- The struct `http.Request`, with the fields the builder touches.  A zero `URL`, `Header`,
`Body` or `PostForm` is `nil`. -/
structure Request where
  Method : String
  URL : Option url.URL
  Header : Option Header
  Body : Option String
  Host : String
  PostForm : Option Values
deriving DecidableEq, Repr

/-- The zero value `http.Request{}`. -/
def Request.zero : Request :=
  { Method := "", URL := none, Header := none, Body := none, Host := "", PostForm := none }

/-- The call `r.Header.Set(k, v)`; `none` is the panic of an assignment into a nil map. -/
def Request.headerSet (r : Request) (k v : String) : Option Request :=
  match r.Header with
  | none => none
  | some h => some { r with Header := some (h.Set k v) }

/-- The function `sanitizeCookieName`: line feeds and carriage returns become dashes. -/
def sanitizeCookieName (n : String) : String :=
  String.mk (n.data.map (fun c => if c.toNat = 10 ∨ c.toNat = 13 then '-' else c))

/-- The function `validCookieValueByte`. -/
def validCookieValueByte (c : Char) : Bool :=
  decide (32 ≤ c.toNat) && decide (c.toNat < 127) && decide (c.toNat ≠ 34) && c != ';' &&
    decide (c.toNat ≠ 92)

/-- The function `sanitizeCookieValue` for an unquoted cookie: invalid bytes are dropped,
and a non-empty value holding a space or a comma is put in double quotes. -/
def sanitizeCookieValue (v : String) : String :=
  let w := v.data.filter validCookieValueByte
  if w = [] then ""
  else if w.contains ' ' || w.contains ',' then
    String.mk ((Char.ofNat 34 :: w) ++ [Char.ofNat 34])
  else String.mk w

/-- The method `func (r *Request) AddCookie(c *Cookie)` for a cookie with the given
name and value: the cookie is appended, after `; `, to a non-empty `Cookie` header, and
otherwise becomes the `Cookie` header. -/
def Request.AddCookie (r : Request) (name value : String) : Option Request :=
  let s := sanitizeCookieName name ++ "=" ++ sanitizeCookieValue value
  let c := match r.Header with
    | none => ""
    | some h => h.Get "Cookie"
  if c ≠ "" then r.headerSet "Cookie" (c ++ "; " ++ s) else r.headerSet "Cookie" s

/-- The function `validMethod`: non-empty and made of token bytes only. -/
def validMethod (method : String) : Bool :=
  method ≠ "" && method.data.all validHeaderFieldByte

/-- The struct `http.Response` as far as the builder's code is concerned. -/
structure Response where
  StatusCode : Nat
  Header : Header
  Body : String
deriving DecidableEq, Repr

/-- The zero value `http.Client{}` that `Send` creates for every call. -/
structure Client where
  Timeout : Nat := 0
deriving DecidableEq, Repr

end http

/-! ## The environment of a call -/

/-- The library functions whose results the model takes as given.  `V` is the type of
the values a caller stores in `PostData` and in the form map. -/
structure Lib (V : Type) where
  /-- The function `json.Marshal`. -/
  jsonMarshal : V → Except GoError String
  /-- The function `fmt.Sprint` on one value. -/
  sprint : V → String
  /-- The function `url.Parse`, followed by the removal of an empty port that
  `http.NewRequest` applies to the host. -/
  urlParse : String → Except GoError url.URL
  /-- The error `http.NewRequest` returns for an invalid method. -/
  invalidMethod : String → GoError
  /-- The string that stands for the values of a multi-valued response header. -/
  collapse : List String → String

/-- What the Go runtime and the network decide during one call of `Send`: the order in
which each `range` loop visits its map, and the result of `Client.Do`. -/
structure Run (V : Type) where
  rangeHeaders : GoMap String → GoMap String
  rangeCookies : GoMap String → GoMap String
  rangeQueries : GoMap String → GoMap String
  rangeForm : GoMap V → GoMap V
  Do : http.Request → Except GoError http.Response

/-- Every `range` loop visits each entry of its map exactly once. -/
def Run.Fair {V : Type} (run : Run V) : Prop :=
  (∀ m, (run.rangeHeaders m).Perm m) ∧ (∀ m, (run.rangeCookies m).Perm m) ∧
  (∀ m, (run.rangeQueries m).Perm m) ∧ (∀ m, (run.rangeForm m).Perm m)

/-- The function `http.NewRequest(method, url, body)` (the method is non-empty where
`Send` calls it): the method is validated, the URL parsed, and the request gets the
method, the URL, its host, an empty non-nil header map and the body. -/
def http.NewRequest {V : Type} (lib : Lib V) (method url : String) (body : Option String) :
    Except GoError http.Request :=
  if http.validMethod method then
    match lib.urlParse url with
    | .error e => .error e
    | .ok u => .ok { Method := method, URL := some u, Header := some [], Body := body,
                     Host := u.Host, PostForm := none }
  else .error (lib.invalidMethod method)

/-! ## The builder: `type Request struct` and its methods -/

/-- The struct `Request` of `request.go`.  `cli` is `nil` or the client made by the last
`Send`; `req` and `Raw` are `nil` or the address of an `http.Request` on the heap;
`PostData` is `nil` or holds a value; `PostDataQuery` is a `nil` map or a map. -/
structure Request (V : Type) where
  cli : Option http.Client
  req : Option Nat
  Raw : Option Nat
  Method : String
  Url : String
  Headers : GoMap String
  Cookies : GoMap String
  Queries : GoMap String
  PostData : Option V
  PostDataQuery : Option (GoMap V)
deriving DecidableEq, Repr

/-- A builder together with the `http.Request` objects its pointers may refer to. -/
structure State (V : Type) where
  heap : List http.Request
  this : Request V
deriving DecidableEq, Repr

/-- The function `NewRequest`: a zero builder whose `req` points to a fresh zero
`http.Request`. -/
def NewRequest {V : Type} (heap : List http.Request) : State V :=
  { heap := heap ++ [http.Request.zero],
    this := { cli := none, req := some heap.length, Raw := none, Method := "", Url := "",
              Headers := [], Cookies := [], Queries := [], PostData := none,
              PostDataQuery := none } }

namespace Request

variable {V : Type}

/-- The method `SetMethod`: `this.Method = method; return this`. -/
def SetMethod (this : Request V) (method : String) : Request V :=
  { this with Method := method }

/-- The method `SetUrl`: `this.Url = url; return this`. -/
def SetUrl (this : Request V) (url : String) : Request V :=
  { this with Url := url }

/-- The method `SetHeaders`: `this.Headers = headers; return this`. -/
def SetHeaders (this : Request V) (headers : GoMap String) : Request V :=
  { this with Headers := headers }

/-- The method `SetCookies`: `this.Cookies = cookies; return this`. -/
def SetCookies (this : Request V) (cookies : GoMap String) : Request V :=
  { this with Cookies := cookies }

/-- The method `SetQueries`: `this.Queries = queries; return this`. -/
def SetQueries (this : Request V) (queries : GoMap String) : Request V :=
  { this with Queries := queries }

/-- The method `SetPostData`: `this.PostData = postData; return this`. -/
def SetPostData (this : Request V) (postData : Option V) : Request V :=
  { this with PostData := postData }

/-- The method `SetPostDataUrlEncode`: `this.PostDataQuery = postData; return this`. -/
def SetPostDataUrlEncode (this : Request V) (postData : Option (GoMap V)) : Request V :=
  { this with PostDataQuery := postData }

end Request

namespace State

variable {V : Type}

/-- A write through `this.req`: the object `this.req` points to is replaced by the result
of `f`.  The result is `none` when the write panics: `this.req` is `nil` (or points
nowhere), or `f` itself panics. -/
def onReq (s : State V) (f : http.Request → Option http.Request) : Option (State V) :=
  match s.this.req with
  | none => none
  | some a =>
    match s.heap[a]? with
    | none => none
    | some r =>
      match f r with
      | none => none
      | some r1 => some { s with heap := s.heap.set a r1 }

/-- The method `setHeaders`: `for k, v := range this.Headers { this.req.Header.Set(k, v) }`. -/
def setHeaders (run : Run V) (s : State V) : Option (State V) :=
  (run.rangeHeaders s.this.Headers).foldlM
    (fun t kv => t.onReq (fun r => r.headerSet kv.1 kv.2)) s

/-- The method `setCookies`: `for k, v := range this.Cookies` adds the cookie with name
`k` and value `v` by `this.req.AddCookie`. -/
def setCookies (run : Run V) (s : State V) : Option (State V) :=
  (run.rangeCookies s.this.Cookies).foldlM
    (fun t kv => t.onReq (fun r => r.AddCookie kv.1 kv.2)) s

/-- The method `setQueries`: `q := this.req.URL.Query()`, then `q.Add(k, v)` for every
entry of `this.Queries`, then `this.req.URL.RawQuery = q.Encode()`.  Reading
`this.req.URL` panics when `this.req` or the URL is `nil`. -/
def setQueries (run : Run V) (s : State V) : Option (State V) :=
  s.onReq (fun r =>
    match r.URL with
    | none => none
    | some u =>
      let q := (run.rangeQueries s.this.Queries).foldl (fun q kv => Values.Add q kv.1 kv.2) u.Query
      some { r with URL := some { u with RawQuery := url.Encode q } })

end State

/-- The struct `Response` of the package, made by `NewResponse` and filled by `Send`. -/
structure Response where
  Raw : Option http.Response
  Headers : GoMap String
  Body : String
deriving DecidableEq, Repr

/-- Modelled from the spec: `NewResponse` lives in a file of the package that is not
among the sources; the spec says the wrapper is created empty at the start of a send. -/
def NewResponse : Response := { Raw := none, Headers := [], Body := "" }

/-- Modelled from the spec: `parseHeaders` is not among the sources; the spec says it
parses the response headers into a key to value mapping, a multi-valued header
collapsing to the representation the transport layer provides. -/
def Response.parseHeaders {V : Type} (lib : Lib V) (resp : Response) : Response :=
  match resp.Raw with
  | none => resp
  | some raw => { resp with Headers := raw.Header.map (fun kv => (kv.1, lib.collapse kv.2)) }

/-- Modelled from the spec: `parseBody` is not among the sources; the spec says it reads
the body stream fully into a consumable form. -/
def Response.parseBody (resp : Response) : Response :=
  match resp.Raw with
  | none => resp
  | some raw => { resp with Body := raw.Body }

/-- What a call of `Send` does besides changing the builder, in order of occurrence. -/
inductive Event (V : Type) where
  /-- The call `fmt.Printf("xxxxxxxx: %v", this.PostData)`. -/
  | printf (postData : Option V)
  /-- The call `http.NewRequest(method, url, payload)`; `none` is a `nil` payload. -/
  | newRequest (method url : String) (payload : Option String)
  /-- The call `this.cli.Do(this.req)`, with the request `this.req` points to. -/
  | clientDo (req : http.Request)
  /-- The call `response.parseHeaders()`. -/
  | parseHeaders
  /-- The call `response.parseBody()`. -/
  | parseBody
  /-- The deferred call `response.Raw.Body.Close()`. -/
  | bodyClose
  /-- The deferred function found a panic: it prints the panic value and the stack. -/
  | recovered
deriving DecidableEq, Repr

/-- The result of a call of `Send`: the builder and heap it leaves, the two values it
returns (`none` is `nil`), and the trace of what it did. -/
structure Outcome (V : Type) where
  state : State V
  response : Option Response
  err : Option GoError
  trace : List (Event V)
deriving DecidableEq, Repr

/-- The end of `Send` by a panic that the deferred function recovers: the diagnostic is
printed and the caller gets `(nil, nil)`. -/
def Outcome.panicked {V : Type} (s : State V) (trace : List (Event V)) : Outcome V :=
  { state := s, response := none, err := none, trace := trace ++ [Event.recovered] }

namespace State

variable {V : Type}

/-- Lines 164 to 176 of `Send`: for `POST` or `PUT` with a non-nil `PostData` the
payload is a reader over `json.Marshal(this.PostData)` (a marshalling error is
returned), otherwise it is `nil`. -/
def jsonPayload (lib : Lib V) (s : State V) (method : String) : Except GoError (Option String) :=
  if method = "POST" ∨ method = "PUT" then
    match s.this.PostData with
    | some v =>
      match lib.jsonMarshal v with
      | .error e => .error e
      | .ok jData => .ok (some jData)
    | none => .ok none
  else .ok none

/-- Lines 177 to 184 of `Send`: for `POST` or `PUT` with a non-nil `PostDataQuery`,
`this.req.PostForm` is set to an empty `url.Values` and receives `fmt.Sprint(v)` under `k`
for every entry, and the payload stays as it is; otherwise the payload becomes `nil`.
The result is `none` when a write through `this.req` panics. -/
def formPayload (lib : Lib V) (run : Run V) (s : State V) (method : String)
    (payload : Option String) : Option (State V × Option String) :=
  if method = "POST" ∨ method = "PUT" then
    match s.this.PostDataQuery with
    | some form =>
      match s.onReq (fun r => some { r with PostForm := some [] }) with
      | none => none
      | some s1 =>
        match (run.rangeForm form).foldlM
            (fun t kv => t.onReq (fun r =>
              some { r with PostForm := some (Values.Add (r.PostForm.getD []) kv.1 (lib.sprint kv.2)) }))
            s1 with
        | none => none
        | some s2 => some (s2, payload)
    | none => some (s, none)
  else some (s, none)

/-- Lines 198 to 209 of `Send`: the request `this.req` points to goes through
`this.cli.Do`; an error is returned as it is; otherwise the response is stored in the
wrapper, headers and body are parsed, and the deferred `Close` runs on return. -/
def exchange (lib : Lib V) (run : Run V) (s : State V) (response : Response)
    (trace : List (Event V)) : Outcome V :=
  match s.this.req.bind (fun a => s.heap[a]?) with
  | none => Outcome.panicked s trace
  | some r =>
    match run.Do r with
    | .error e => { state := s, response := none, err := some e, trace := trace ++ [Event.clientDo r] }
    | .ok resp =>
      let response := { response with Raw := some resp }
      let response := response.parseHeaders lib
      let response := response.parseBody
      { state := s, response := some response, err := none,
        trace := trace ++ [Event.clientDo r, Event.parseHeaders, Event.parseBody, Event.bodyClose] }

/-- The method `Send(url, method)`.  The states are `s0` (after `this.cli` is set),
`s1` (after the form lines), `s2` (after `this.req = req`), `s3`, `s4`, `s5` (after
`setHeaders`, `setCookies`, `setQueries`) and `s6` (after `this.Raw = this.req`).  The
three helper methods cannot panic on the request `http.NewRequest` has just returned
(`dress_steps` below), so their `none` branches are never taken. -/
def Send (lib : Lib V) (run : Run V) (s : State V) (url method : String) : Outcome V :=
  if url = "" then
    { state := s, response := none, err := some "Lack of request url", trace := [] }
  else if method = "" then
    { state := s, response := none, err := some "Lack of request method", trace := [] }
  else
    let response := NewResponse
    let s0 : State V := { s with this := { s.this with cli := some {} } }
    match s0.jsonPayload lib method with
    | .error e => { state := s0, response := none, err := some e, trace := [] }
    | .ok jsonReader =>
      let printed := [Event.printf s0.this.PostData]
      match s0.formPayload lib run method jsonReader with
      | none => Outcome.panicked s0 printed
      | some (s1, payload) =>
        let trace := printed ++ [Event.newRequest method url payload]
        match http.NewRequest lib method url payload with
        | .error e => { state := s1, response := none, err := some e, trace := trace }
        | .ok req =>
          let s2 : State V :=
            { heap := s1.heap ++ [req], this := { s1.this with req := some s1.heap.length } }
          match s2.setHeaders run with
          | none => Outcome.panicked s2 trace
          | some s3 =>
            match s3.setCookies run with
            | none => Outcome.panicked s3 trace
            | some s4 =>
              match s4.setQueries run with
              | none => Outcome.panicked s4 trace
              | some s5 =>
                let s6 : State V := { s5 with this := { s5.this with Raw := s5.this.req } }
                s6.exchange lib run response trace

/-- The method `Get`: `this.Send(this.Url, http.MethodGet)`. -/
def Get (lib : Lib V) (run : Run V) (s : State V) : Outcome V :=
  s.Send lib run s.this.Url "GET"

/-- The method `Delete`: `this.Send(this.Url, http.MethodDelete)`. -/
def Delete (lib : Lib V) (run : Run V) (s : State V) : Outcome V :=
  s.Send lib run s.this.Url "DELETE"

/-- The method `Put`: `this.Send(this.Url, http.MethodPut)`. -/
def Put (lib : Lib V) (run : Run V) (s : State V) : Outcome V :=
  s.Send lib run s.this.Url "PUT"

/-- The method `Post`: `this.Send(this.Url, http.MethodPost)`. -/
def Post (lib : Lib V) (run : Run V) (s : State V) : Outcome V :=
  s.Send lib run s.this.Url "POST"

/-- The method `PUT`: `this.Send(this.Url, http.MethodPut)`. -/
def PUT (lib : Lib V) (run : Run V) (s : State V) : Outcome V :=
  s.Send lib run s.this.Url "PUT"

/-- The method `PATCH`: `this.Send(this.Url, http.MethodPatch)`. -/
def PATCH (lib : Lib V) (run : Run V) (s : State V) : Outcome V :=
  s.Send lib run s.this.Url "PATCH"

end State

end Curl

namespace Curl

/-! ## Closed forms used in the statements -/

/-- The header map after `h.Set(k, v)` for the entries `l`, in that order. -/
def applyHeaders (l : GoMap String) (h : http.Header) : http.Header :=
  l.foldl (fun h kv => h.Set kv.1 kv.2) h

/-- The header map after `AddCookie` of one cookie, on a request with the non-nil header map `h`. -/
def cookieStep (h : http.Header) (kv : String × String) : http.Header :=
  if h.Get "Cookie" ≠ "" then
    h.Set "Cookie" (h.Get "Cookie" ++ "; " ++
      (http.sanitizeCookieName kv.1 ++ "=" ++ http.sanitizeCookieValue kv.2))
  else h.Set "Cookie" (http.sanitizeCookieName kv.1 ++ "=" ++ http.sanitizeCookieValue kv.2)

/-- The header map after `AddCookie` for the entries `l`, in that order. -/
def applyCookies (l : GoMap String) (h : http.Header) : http.Header :=
  l.foldl cookieStep h

/-- The values after `q.Add(k, v)` for the entries `l`, in that order. -/
def applyQueries (l : GoMap String) (q : Values) : Values :=
  l.foldl (fun q kv => Values.Add q kv.1 kv.2) q

/-- The values found under `key` among the entries `l`. -/
def configured (l : GoMap String) (key : String) : List String :=
  (l.filter (fun kv => kv.1 = key)).map Prod.snd

/-- The request `Send` passes to the client, given the request `http.NewRequest` returned:
the configured headers are set, then the cookies added, then the queries merged. -/
def dress {V : Type} (run : Run V) (this : Request V) (req : http.Request) : http.Request :=
  { req with
    Header := req.Header.map (fun h =>
      applyCookies (run.rangeCookies this.Cookies) (applyHeaders (run.rangeHeaders this.Headers) h)),
    URL := req.URL.map (fun u =>
      { u with RawQuery := url.Encode (applyQueries (run.rangeQueries this.Queries) u.Query) }) }

namespace State

variable {V : Type}

/-- The state after `this.cli = &http.Client{}`. -/
abbrev withClient (s : State V) : State V :=
  { s with this := { s.this with cli := some {} } }

/-- The state after `this.req = req` and `this.Raw = this.req`, with the request that
`setHeaders`, `setCookies` and `setQueries` have worked on stored at the new address. -/
abbrev realized (s1 : State V) (r : http.Request) : State V :=
  { heap := s1.heap ++ [r],
    this := { s1.this with req := some s1.heap.length, Raw := some s1.heap.length } }

/-- The builder with its `Method` field replaced, every other field and the heap kept. -/
def setMethod (s : State V) (method : String) : State V :=
  { s with this := s.this.SetMethod method }

/-- The payload `Send` hands to `http.NewRequest` when lines 164 to 184 neither return nor
panic: the marshalled `PostData` for `POST` or `PUT` with both `PostData` and
`PostDataQuery` non-nil, and `nil` in every other case. -/
def payload (lib : Lib V) (s : State V) (method : String) : Option String :=
  if (method = "POST" ∨ method = "PUT") ∧ s.this.PostDataQuery.isSome = true then
    match s.withClient.jsonPayload lib method with
    | .ok jr => jr
    | .error _ => none
  else none

end State

/-- The string is a byte sequence: every `Char` stands for one byte. -/
def IsBytes (s : String) : Prop := ∀ c ∈ s.data, c.toNat < 256

/-- All keys and values of the map are byte sequences. -/
def Values.IsBytes (v : Values) : Prop :=
  ∀ kv ∈ v, Curl.IsBytes kv.1 ∧ ∀ x ∈ kv.2, Curl.IsBytes x

/-- The two builders have the same configuration: the fields that the setters write. -/
def Request.sameConfig {V : Type} (a b : Request V) : Prop :=
  a.Method = b.Method ∧ a.Url = b.Url ∧ a.Headers = b.Headers ∧ a.Cookies = b.Cookies ∧
    a.Queries = b.Queries ∧ a.PostData = b.PostData ∧ a.PostDataQuery = b.PostDataQuery

/-- The field `this.req` points to a request object. -/
def State.reqOk {V : Type} (s : State V) : Prop :=
  ∃ a, s.this.req = some a ∧ a < s.heap.length

/-- The outcome with the `Method` field of the final builder replaced. -/
def Outcome.withMethod {V : Type} (o : Outcome V) (method : String) : Outcome V :=
  { o with state := o.state.setMethod method }

end Curl

namespace Curl

/-! ## Reading a trace -/

namespace Outcome

variable {V : Type}

/-- The calls of `http.NewRequest` made during the call: method, URL and payload of each. -/
def built (o : Outcome V) : List (String × String × Option String) :=
  o.trace.filterMap (fun ev =>
    match ev with
    | Event.newRequest m u p => some (m, u, p)
    | _ => none)

/-- The requests handed to `this.cli.Do` during the call. -/
def sent (o : Outcome V) : List http.Request :=
  o.trace.filterMap (fun ev =>
    match ev with
    | Event.clientDo r => some r
    | _ => none)

/-- The call read the response: it parsed headers or body, or closed the body. -/
def touchedResponse (o : Outcome V) : Bool :=
  o.trace.any (fun ev =>
    match ev with
    | Event.parseHeaders => true
    | Event.parseBody => true
    | Event.bodyClose => true
    | _ => false)

end Outcome

/-! ## A concrete environment -/

namespace Demo

/-- Values a caller may hand to `SetPostData`: a Go `map[string]int`, a string, a channel. -/
inductive Val where
  | ints (m : List (String × Int))
  | text (s : String)
  | chan
deriving DecidableEq, Repr

/-- The answers of `json.Marshal` on the sample values, for maps given with sorted keys
and for text without bytes that JSON escapes; a channel is not serializable. -/
def marshal : Val → Except GoError String
  | .ints m =>
    .ok ("\x7b" ++ ",".intercalate (m.map (fun kv => "\x22" ++ kv.1 ++ "\x22:" ++ toString kv.2))
      ++ "\x7d")
  | .text s => .ok ("\x22" ++ s ++ "\x22")
  | .chan => .error "json: unsupported type: chan int"

/-- The answers of `fmt.Sprint` on the sample values. -/
def sprint : Val → String
  | .ints m => "map[" ++ " ".intercalate (m.map (fun kv => kv.1 ++ ":" ++ toString kv.2)) ++ "]"
  | .text s => s
  | .chan => "0xc000012345"

/-- The answers of `url.Parse` on absolute URLs of the shape
`scheme://host/path?query#fragment`; any other text is reported as an error. -/
def parse (rawurl : String) : Except GoError url.URL :=
  let frag := url.cut '#' rawurl.data
  let qry := url.cut '?' frag.1
  let sch := url.cut ':' qry.1
  match sch.2 with
  | '/' :: '/' :: rest =>
    .ok { Scheme := String.mk sch.1,
          Host := String.mk (rest.takeWhile (fun c => c != '/')),
          Path := String.mk (rest.dropWhile (fun c => c != '/')),
          RawQuery := String.mk qry.2,
          Fragment := String.mk frag.2 }
  | _ => .error ("parse " ++ rawurl ++ ": not an absolute URL")

/-- A library for the sample values. -/
def lib : Lib Val :=
  { jsonMarshal := marshal, sprint := sprint, urlParse := parse,
    invalidMethod := fun m => "net/http: invalid method " ++ m,
    collapse := fun vs => ", ".intercalate vs }

/-- A run in which every loop visits its map in the listed order and the server answers. -/
def online : Run Val :=
  { rangeHeaders := id, rangeCookies := id, rangeQueries := id, rangeForm := id,
    Do := fun _ =>
      .ok { StatusCode := 200, Header := [("Content-Type", ["text/plain"])], Body := "ok" } }

/-- A run in which every loop visits its map in the reverse of the listed order. -/
def backwards : Run Val :=
  { rangeHeaders := List.reverse, rangeCookies := List.reverse, rangeQueries := List.reverse,
    rangeForm := List.reverse,
    Do := fun _ =>
      .ok { StatusCode := 200, Header := [("Content-Type", ["text/plain"])], Body := "ok" } }

/-- A run in which the host cannot be reached. -/
def offline : Run Val :=
  { rangeHeaders := id, rangeCookies := id, rangeQueries := id, rangeForm := id,
    Do := fun _ => .error "dial tcp 10.0.0.1:80: connect: connection refused" }

/-- The builder `NewRequest()` on an empty heap. -/
def fresh : State Val := NewRequest []

/-- The builder after the given chain of setters on `NewRequest()`. -/
def configure (f : Request Val → Request Val) : State Val :=
  { fresh with this := f fresh.this }

/-- A builder with method, headers and a JSON body configured, and no URL. -/
def noUrl : State Val :=
  configure (fun b =>
    ((b.SetMethod "POST").SetHeaders [("X-Test", "v")]).SetPostData (some (Val.ints [("a", 1)])))

/-- A builder with a URL and the JSON body `map[string]int` with `a: 1`, and no form body. -/
def jsonOnly : State Val :=
  configure (fun b => (b.SetUrl "http://host/path").SetPostData (some (Val.ints [("a", 1)])))

/-- The builder `jsonOnly` with the form body `k: v` configured as well. -/
def jsonAndForm : State Val :=
  { jsonOnly with this := jsonOnly.this.SetPostDataUrlEncode (some [("k", Val.text "v")]) }

/-- A builder with a URL and the form body `k: v`, and no JSON body. -/
def formOnly : State Val :=
  configure (fun b =>
    (b.SetUrl "http://host/path").SetPostDataUrlEncode (some [("k", Val.text "v")]))

/-- A builder whose URL carries a query with the segments `a;b=1` and `c=2`, and the
configured query `q` with the value `a b&c`. -/
def oddQuery : State Val :=
  configure (fun b => (b.SetUrl "http://host/path?a;b=1&c=2").SetQueries [("q", "a b&c")])

/-- A builder whose URL carries a query with the segments `a=%zz` and `y=2`, and no
configured query. -/
def badEscape : State Val :=
  configure (fun b => b.SetUrl "http://host/path?a=%zz&y=2")

/-- A builder with a URL that carries the query `y=2` and the configured query `x: 1`. -/
def withQuery : State Val :=
  configure (fun b => (b.SetUrl "http://host/path?y=2").SetQueries [("x", "1")])

/-- A builder with a URL and the header `X-Test: v`. -/
def withHeader : State Val :=
  configure (fun b => (b.SetUrl "http://host/path").SetHeaders [("X-Test", "v")])

/-- A builder with a URL and a header whose name is written in lower case. -/
def lowerHeader : State Val :=
  configure (fun b => (b.SetUrl "http://host/path").SetHeaders [("x-test", "v")])

/-- A builder with a URL and two header names that differ in case only. -/
def clash : State Val :=
  configure (fun b => (b.SetUrl "http://host/path").SetHeaders [("x-a", "1"), ("X-A", "2")])

/-- A builder with a URL and two cookies. -/
def twoCookies : State Val :=
  configure (fun b => (b.SetUrl "http://host/path").SetCookies [("a", "1"), ("b", "2")])

end Demo

end Curl
namespace Curl

/-! ## Lemmas on maps -/

namespace Values

theorem get_put_self (v : Values) (k : String) (vs : List String) : (v.put k vs).get k = vs := by
  induction v with
  | nil => simp [put, get]
  | cons hd tl ih =>
    obtain ⟨k1, ws⟩ := hd
    by_cases h : k1 = k
    · simp [put, get, h]
    · simp [put, get, h, ih]

theorem get_put_of_ne (v : Values) {k k1 : String} (vs : List String) (h : k ≠ k1) :
    (v.put k vs).get k1 = v.get k1 := by
  induction v with
  | nil => simp [put, get, h]
  | cons hd tl ih =>
    obtain ⟨k2, ws⟩ := hd
    by_cases h2 : k2 = k
    · subst h2; simp [put, get, h]
    · by_cases h3 : k2 = k1
      · subst h3; simp [put, get, h2]
      · simp [put, get, h2, h3, ih]

theorem get_Add_self (v : Values) (k x : String) : (v.Add k x).get k = v.get k ++ [x] := by
  simp [Add, get_put_self]

theorem get_Add_of_ne (v : Values) {k k1 : String} (x : String) (h : k ≠ k1) :
    (v.Add k x).get k1 = v.get k1 := by
  simp [Add, get_put_of_ne _ _ h]

end Values

theorem get_applyQueries (l : GoMap String) (q : Values) (key : String) :
    (applyQueries l q).get key = q.get key ++ configured l key := by
  induction l generalizing q with
  | nil => simp [applyQueries, configured]
  | cons hd tl ih =>
    obtain ⟨k, x⟩ := hd
    have hstep : applyQueries ((k, x) :: tl) q = applyQueries tl (q.Add k x) := rfl
    rw [hstep, ih]
    by_cases h : k = key
    · subst h; simp [configured, Values.get_Add_self]
    · simp [configured, h, Values.get_Add_of_ne _ _ h]

theorem configured_perm {l1 l2 : GoMap String} (hp : l1.Perm l2)
    (hn : (l2.map Prod.fst).Nodup) (key : String) : configured l1 key = configured l2 key := by
  have h1 : (l1.map Prod.fst).Nodup := (hp.map Prod.fst).nodup_iff.mpr hn
  have key1 : ∀ l : GoMap String, (l.map Prod.fst).Nodup →
      ∀ x, x ∈ configured l key ↔ (key, x) ∈ l := by
    intro l _ x
    simp [configured]
  have len : ∀ l : GoMap String, (l.map Prod.fst).Nodup → (configured l key).length ≤ 1 := by
    intro l hl
    induction l with
    | nil => simp [configured]
    | cons hd tl ih =>
      obtain ⟨k, x⟩ := hd
      simp only [List.map_cons, List.nodup_cons] at hl
      by_cases h : k = key
      · subst h
        have : configured tl k = [] := by
          simp only [configured, List.map_eq_nil_iff, List.filter_eq_nil_iff]
          intro kv hkv hk
          apply hl.1
          simp only [decide_eq_true_eq] at hk
          exact List.mem_map.mpr ⟨kv, hkv, hk⟩
        have e : configured ((k, x) :: tl) k = x :: configured tl k := by simp [configured]
        rw [e, this]; simp
      · have := ih hl.2
        simpa [configured, h] using this
  have m : ∀ x, x ∈ configured l1 key ↔ x ∈ configured l2 key := by
    intro x
    rw [key1 l1 h1, key1 l2 hn]
    exact hp.mem_iff
  have a1 := len l1 h1
  have a2 := len l2 hn
  match e1 : configured l1 key, e2 : configured l2 key with
  | [], [] => rfl
  | [], y :: ys => have := (m y).mpr (by simp [e2]); simp [e1] at this
  | x :: xs, [] => have := (m x).mp (by simp [e1]); simp [e2] at this
  | x :: xs, y :: ys =>
    rw [e1] at a1; rw [e2] at a2
    simp only [List.length_cons] at a1 a2
    have hx : xs = [] := List.length_eq_zero.mp (by omega)
    have hy : ys = [] := List.length_eq_zero.mp (by omega)
    subst hx hy
    have := (m x).mp (by simp [e1])
    simp [e2] at this
    simp [this]

end Curl

namespace Curl

namespace State

variable {V : Type}

theorem onReq_frame {s t : State V} {f : http.Request → Option http.Request}
    (h : s.onReq f = some t) : t.this = s.this ∧ t.heap.length = s.heap.length := by
  unfold onReq at h
  split at h
  · simp at h
  · split at h
    · simp at h
    · split at h
      · simp at h
      · simp only [Option.some.injEq] at h
        subst h
        simp

theorem onReq_some {s : State V} {f : http.Request → Option http.Request} {a : Nat}
    {r r1 : http.Request} (ha : s.this.req = some a) (hr : s.heap[a]? = some r)
    (hf : f r = some r1) : s.onReq f = some { s with heap := s.heap.set a r1 } := by
  simp [onReq, ha, hr, hf]

theorem foldlM_onReq_frame {α : Type} (g : α → http.Request → Option http.Request)
    (l : List α) (s t : State V)
    (h : l.foldlM (fun t x => t.onReq (g x)) s = some t) :
    t.this = s.this ∧ t.heap.length = s.heap.length := by
  induction l generalizing s with
  | nil => simp at h; subst h; simp
  | cons x xs ih =>
    simp only [List.foldlM_cons, Option.bind_eq_bind, Option.bind_eq_some] at h
    obtain ⟨s1, h1, h2⟩ := h
    have a := onReq_frame h1
    have b := ih s1 h2
    exact ⟨b.1.trans a.1, b.2.trans a.2⟩

theorem set_of_getElem? {α : Type} (l : List α) (a : Nat) (r : α) (h : l[a]? = some r) :
    l.set a r = l := by
  apply List.ext_getElem?
  intro i
  rw [List.getElem?_set]
  by_cases e : a = i
  · subst e
    have : a < l.length := by
      rcases List.getElem?_eq_some.mp h with ⟨hlt, _⟩
      exact hlt
    simp [this, h]
  · simp [e]

theorem foldlM_onReq {α : Type} (g : α → http.Request → Option http.Request)
    (G : http.Request → α → http.Request) (P : http.Request → Prop)
    (hg : ∀ x r, P r → g x r = some (G r x) ∧ P (G r x))
    (l : List α) (s : State V) (a : Nat) (r : http.Request)
    (ha : s.this.req = some a) (hr : s.heap[a]? = some r) (hP : P r) :
    l.foldlM (fun t x => t.onReq (g x)) s = some { s with heap := s.heap.set a (l.foldl G r) } := by
  induction l generalizing s r with
  | nil =>
    simp only [List.foldlM_nil, List.foldl_nil, set_of_getElem? _ _ _ hr]
    rfl
  | cons x xs ih =>
    have hlt : a < s.heap.length := by
      rcases List.getElem?_eq_some.mp hr with ⟨hlt, _⟩
      exact hlt
    rw [List.foldlM_cons, onReq_some ha hr (hg x r hP).1]
    simp only [Option.bind_eq_bind, Option.some_bind, List.foldl_cons]
    rw [ih { s with heap := s.heap.set a (G r x) } (G r x) ha
      (by simp [List.getElem?_set_self hlt]) (hg x r hP).2]
    simp [List.set_set]

theorem foldl_headerSet (l : GoMap String) (r : http.Request) (h : http.Header)
    (hr : r.Header = some h) :
    l.foldl (fun (r : http.Request) kv =>
        { r with Header := some ((r.Header.getD []).Set kv.1 kv.2) }) r
      = { r with Header := some (applyHeaders l h) } := by
  induction l generalizing r h with
  | nil => cases r; simp_all [applyHeaders]
  | cons x xs ih =>
    rw [List.foldl_cons, ih _ ((h.Set x.1 x.2)) (by simp [hr])]
    simp [applyHeaders, hr]

theorem setHeaders_eq (run : Run V) (s : State V) (a : Nat) (r : http.Request) (h : http.Header)
    (ha : s.this.req = some a) (hr : s.heap[a]? = some r) (hh : r.Header = some h) :
    s.setHeaders run = some ⟨s.heap.set a
      { r with Header := some (applyHeaders (run.rangeHeaders s.this.Headers) h) }, s.this⟩ := by
  have key := foldlM_onReq
    (fun (kv : String × String) (r : http.Request) => r.headerSet kv.1 kv.2)
    (fun r kv => { r with Header := some ((r.Header.getD []).Set kv.1 kv.2) })
    (fun r => r.Header.isSome = true)
    (by
      intro x r1 h1
      obtain ⟨h2, e2⟩ := Option.isSome_iff_exists.mp h1
      simp [http.Request.headerSet, e2])
    (run.rangeHeaders s.this.Headers) s a r ha hr (by simp [hh])
  rw [foldl_headerSet _ _ _ hh] at key
  exact key

theorem foldl_cookie (l : GoMap String) (r : http.Request) (h : http.Header)
    (hr : r.Header = some h) :
    l.foldl (fun (r : http.Request) kv =>
        { r with Header := some (cookieStep (r.Header.getD []) kv) }) r
      = { r with Header := some (applyCookies l h) } := by
  induction l generalizing r h with
  | nil => cases r; simp_all [applyCookies]
  | cons x xs ih =>
    rw [List.foldl_cons, ih _ (cookieStep h x) (by simp [hr])]
    simp [applyCookies, hr]

theorem setCookies_eq (run : Run V) (s : State V) (a : Nat) (r : http.Request) (h : http.Header)
    (ha : s.this.req = some a) (hr : s.heap[a]? = some r) (hh : r.Header = some h) :
    s.setCookies run = some ⟨s.heap.set a
      { r with Header := some (applyCookies (run.rangeCookies s.this.Cookies) h) }, s.this⟩ := by
  have key := foldlM_onReq
    (fun (kv : String × String) (r : http.Request) => r.AddCookie kv.1 kv.2)
    (fun r kv => { r with Header := some (cookieStep (r.Header.getD []) kv) })
    (fun r => r.Header.isSome = true)
    (by
      intro x r1 h1
      obtain ⟨h2, e2⟩ := Option.isSome_iff_exists.mp h1
      simp only [http.Request.AddCookie, e2, http.Request.headerSet, cookieStep,
        Option.getD_some]
      split <;> simp)
    (run.rangeCookies s.this.Cookies) s a r ha hr (by simp [hh])
  rw [foldl_cookie _ _ _ hh] at key
  exact key

theorem setQueries_eq (run : Run V) (s : State V) (a : Nat) (r : http.Request) (u : url.URL)
    (ha : s.this.req = some a) (hr : s.heap[a]? = some r) (hu : r.URL = some u) :
    s.setQueries run = some ⟨s.heap.set a
      { r with
        URL := some
          { u with
            RawQuery := url.Encode (applyQueries (run.rangeQueries s.this.Queries) u.Query) } },
      s.this⟩ := by
  unfold setQueries
  rw [onReq_some ha hr]
  simp [hu, applyQueries]

end State

end Curl

namespace Curl

namespace State

variable {V : Type}

theorem formPayload_frame {lib : Lib V} {run : Run V} {s s1 : State V} {method : String}
    {jr payload : Option String} (h : s.formPayload lib run method jr = some (s1, payload)) :
    s1.this = s.this ∧ s1.heap.length = s.heap.length ∧
      payload = if (method = "POST" ∨ method = "PUT") ∧ s.this.PostDataQuery.isSome = true
        then jr else none := by
  unfold formPayload at h
  by_cases hm : method = "POST" ∨ method = "PUT"
  · simp only [hm, if_true] at h
    cases hq : s.this.PostDataQuery with
    | none =>
      simp only [hq, Option.some.injEq, Prod.mk.injEq] at h
      obtain ⟨h1, h2⟩ := h
      subst h1
      simp [hq, h2.symm]
    | some form =>
      simp only [hq] at h
      split at h
      · simp at h
      · rename_i s2 hs2
        split at h
        · simp at h
        · rename_i s3 hs3
          simp only [Option.some.injEq, Prod.mk.injEq] at h
          obtain ⟨h1, h2⟩ := h
          subst h1
          have a := onReq_frame hs2
          have b := foldlM_onReq_frame _ _ _ _ hs3
          refine ⟨b.1.trans a.1, b.2.trans a.2, ?_⟩
          simp [hm, h2.symm]
  · simp only [hm, if_false, Option.some.injEq, Prod.mk.injEq] at h
    obtain ⟨h1, h2⟩ := h
    subst h1
    simp [hm, h2.symm]

theorem NewRequest_ok {lib : Lib V} {method url : String} {payload : Option String}
    {req : http.Request} (h : http.NewRequest lib method url payload = .ok req) :
    ∃ u, lib.urlParse url = .ok u ∧ http.validMethod method = true ∧
      req = { Method := method, URL := some u, Header := some [], Body := payload,
              Host := u.Host, PostForm := none } := by
  unfold http.NewRequest at h
  split at h
  · rename_i hv
    split at h
    · simp at h
    · rename_i u hu
      simp only [Except.ok.injEq] at h
      exact ⟨u, hu, hv, h.symm⟩
  · simp at h

theorem dress_steps (run : Run V) (s2 : State V) (a : Nat) (r : http.Request) (u : url.URL)
    (ha : s2.this.req = some a) (hr : s2.heap[a]? = some r) (hh : r.Header = some [])
    (hu : r.URL = some u) :
    ∃ s3 s4 s5, s2.setHeaders run = some s3 ∧ s3.setCookies run = some s4 ∧
      s4.setQueries run = some s5 ∧ s5 = ⟨s2.heap.set a (dress run s2.this r), s2.this⟩ := by
  have hlt : a < s2.heap.length := by
    rcases List.getElem?_eq_some.mp hr with ⟨hlt, _⟩
    exact hlt
  refine ⟨_, _, _, setHeaders_eq run s2 a r [] ha hr hh,
    setCookies_eq run _ a
      { r with Header := some (applyHeaders (run.rangeHeaders s2.this.Headers) []) }
      (applyHeaders (run.rangeHeaders s2.this.Headers) []) ha ?_ rfl,
    setQueries_eq run _ a
      { r with Header := some (applyCookies (run.rangeCookies s2.this.Cookies)
                (applyHeaders (run.rangeHeaders s2.this.Headers) [])) }
      u ha ?_ hu, ?_⟩
  · simp [List.getElem?_set_self hlt]
  · simp [List.getElem?_set_self, hlt]
  · simp [dress, hh, hu, List.set_set]

theorem Send_built (lib : Lib V) (run : Run V) (s s1 : State V) (url method : String)
    (jr payload : Option String) (req : http.Request) (hu : url ≠ "") (hm : method ≠ "")
    (hj : s.withClient.jsonPayload lib method = .ok jr)
    (hf : s.withClient.formPayload lib run method jr = some (s1, payload))
    (hn : http.NewRequest lib method url payload = .ok req) :
    s.Send lib run url method =
      (s1.realized (dress run s.this req)).exchange lib run NewResponse
        [Event.printf s.this.PostData, Event.newRequest method url payload] := by
  obtain ⟨u, _, _, hreq⟩ := NewRequest_ok hn
  obtain ⟨ht, _, _⟩ := formPayload_frame hf
  obtain ⟨s3, s4, s5, e1, e2, e3, e5⟩ := dress_steps run
    ({ heap := s1.heap ++ [req], this := { s1.this with req := some s1.heap.length } } : State V)
    s1.heap.length req u rfl (by simp) (by simp [hreq]) (by simp [hreq])
  unfold Send
  simp only [hu, hm, if_false]
  simp only [withClient] at hj hf
  simp only [hj, hf, hn, e1, e2, e3]
  subst e5
  congr 1
  simp [realized, dress, ht]

end State

end Curl

namespace Curl

namespace State

variable {V : Type}

theorem exchange_realized (lib : Lib V) (run : Run V) (s1 : State V) (r : http.Request)
    (response : Response) (trace : List (Event V)) :
    (s1.realized r).exchange lib run response trace =
      match run.Do r with
      | .error e =>
        { state := s1.realized r, response := none, err := some e,
          trace := trace ++ [Event.clientDo r] }
      | .ok resp =>
        { state := s1.realized r,
          response := some (({ response with Raw := some resp } : Response).parseHeaders lib).parseBody,
          err := none,
          trace := trace ++ [Event.clientDo r, Event.parseHeaders, Event.parseBody,
            Event.bodyClose] } := by
  simp [exchange, realized]

theorem Send_json_error (lib : Lib V) (run : Run V) (s : State V) (url method : String)
    (e : GoError) (hu : url ≠ "") (hm : method ≠ "")
    (hj : s.withClient.jsonPayload lib method = .error e) :
    s.Send lib run url method =
      { state := s.withClient, response := none, err := some e, trace := [] } := by
  unfold Send
  simp only [hu, hm, if_false]
  simp only [withClient] at hj
  simp only [hj]

theorem Send_form_panic (lib : Lib V) (run : Run V) (s : State V) (url method : String)
    (jr : Option String) (hu : url ≠ "") (hm : method ≠ "")
    (hj : s.withClient.jsonPayload lib method = .ok jr)
    (hf : s.withClient.formPayload lib run method jr = none) :
    s.Send lib run url method =
      Outcome.panicked s.withClient [Event.printf s.this.PostData] := by
  unfold Send
  simp only [hu, hm, if_false]
  simp only [withClient] at hj hf
  simp only [hj, hf]

theorem Send_build_error (lib : Lib V) (run : Run V) (s s1 : State V) (url method : String)
    (jr p : Option String) (e : GoError) (hu : url ≠ "") (hm : method ≠ "")
    (hj : s.withClient.jsonPayload lib method = .ok jr)
    (hf : s.withClient.formPayload lib run method jr = some (s1, p))
    (hn : http.NewRequest lib method url p = .error e) :
    s.Send lib run url method =
      { state := s1, response := none, err := some e,
        trace := [Event.printf s.this.PostData, Event.newRequest method url p] } := by
  unfold Send
  simp only [hu, hm, if_false]
  simp only [withClient] at hj hf
  simp only [hj, hf, hn]
  simp

theorem Send_do_error (lib : Lib V) (run : Run V) (s s1 : State V) (url method : String)
    (jr p : Option String) (req : http.Request) (e : GoError) (hu : url ≠ "")
    (hm : method ≠ "")
    (hj : s.withClient.jsonPayload lib method = .ok jr)
    (hf : s.withClient.formPayload lib run method jr = some (s1, p))
    (hn : http.NewRequest lib method url p = .ok req)
    (hd : run.Do (dress run s.this req) = .error e) :
    s.Send lib run url method =
      { state := s1.realized (dress run s.this req), response := none, err := some e,
        trace := [Event.printf s.this.PostData, Event.newRequest method url p,
          Event.clientDo (dress run s.this req)] } := by
  rw [Send_built lib run s s1 url method jr p req hu hm hj hf hn, exchange_realized, hd]
  simp

theorem Send_do_ok (lib : Lib V) (run : Run V) (s s1 : State V) (url method : String)
    (jr p : Option String) (req : http.Request) (resp : http.Response) (hu : url ≠ "")
    (hm : method ≠ "")
    (hj : s.withClient.jsonPayload lib method = .ok jr)
    (hf : s.withClient.formPayload lib run method jr = some (s1, p))
    (hn : http.NewRequest lib method url p = .ok req)
    (hd : run.Do (dress run s.this req) = .ok resp) :
    s.Send lib run url method =
      { state := s1.realized (dress run s.this req),
        response := some
          (({ NewResponse with Raw := some resp } : Response).parseHeaders lib).parseBody,
        err := none,
        trace := [Event.printf s.this.PostData, Event.newRequest method url p,
          Event.clientDo (dress run s.this req), Event.parseHeaders, Event.parseBody,
          Event.bodyClose] } := by
  rw [Send_built lib run s s1 url method jr p req hu hm hj hf hn, exchange_realized, hd]
  simp

/-- The ways a call of `Send` with a non-empty URL and method can go. -/
theorem Send_cases (lib : Lib V) (run : Run V) (s : State V) (url method : String)
    (hu : url ≠ "") (hm : method ≠ "") :
    (∃ e, s.withClient.jsonPayload lib method = .error e ∧
        s.Send lib run url method =
          { state := s.withClient, response := none, err := some e, trace := [] }) ∨
    (∃ jr, s.withClient.jsonPayload lib method = .ok jr ∧
        s.withClient.formPayload lib run method jr = none ∧
        s.Send lib run url method =
          Outcome.panicked s.withClient [Event.printf s.this.PostData]) ∨
    (∃ jr s1 p e, s.withClient.jsonPayload lib method = .ok jr ∧
        s.withClient.formPayload lib run method jr = some (s1, p) ∧
        http.NewRequest lib method url p = .error e ∧
        s.Send lib run url method =
          { state := s1, response := none, err := some e,
            trace := [Event.printf s.this.PostData, Event.newRequest method url p] }) ∨
    (∃ jr s1 p req e, s.withClient.jsonPayload lib method = .ok jr ∧
        s.withClient.formPayload lib run method jr = some (s1, p) ∧
        http.NewRequest lib method url p = .ok req ∧
        run.Do (dress run s.this req) = .error e ∧
        s.Send lib run url method =
          { state := s1.realized (dress run s.this req), response := none, err := some e,
            trace := [Event.printf s.this.PostData, Event.newRequest method url p,
              Event.clientDo (dress run s.this req)] }) ∨
    (∃ jr s1 p req resp, s.withClient.jsonPayload lib method = .ok jr ∧
        s.withClient.formPayload lib run method jr = some (s1, p) ∧
        http.NewRequest lib method url p = .ok req ∧
        run.Do (dress run s.this req) = .ok resp ∧
        s.Send lib run url method =
          { state := s1.realized (dress run s.this req),
            response := some
              (({ NewResponse with Raw := some resp } : Response).parseHeaders lib).parseBody,
            err := none,
            trace := [Event.printf s.this.PostData, Event.newRequest method url p,
              Event.clientDo (dress run s.this req), Event.parseHeaders, Event.parseBody,
              Event.bodyClose] }) := by
  cases hj : s.withClient.jsonPayload lib method with
  | error e => exact Or.inl ⟨e, rfl, Send_json_error lib run s url method e hu hm hj⟩
  | ok jr =>
    right
    cases hf : s.withClient.formPayload lib run method jr with
    | none => exact Or.inl ⟨jr, rfl, hf, Send_form_panic lib run s url method jr hu hm hj hf⟩
    | some sp =>
      right
      obtain ⟨s1, p⟩ := sp
      cases hn : http.NewRequest lib method url p with
      | error e =>
        exact Or.inl ⟨jr, s1, p, e, rfl, hf, hn,
          Send_build_error lib run s s1 url method jr p e hu hm hj hf hn⟩
      | ok req =>
        right
        cases hd : run.Do (dress run s.this req) with
        | error e =>
          exact Or.inl ⟨jr, s1, p, req, e, rfl, hf, hn, hd,
            Send_do_error lib run s s1 url method jr p req e hu hm hj hf hn hd⟩
        | ok resp =>
          exact Or.inr ⟨jr, s1, p, req, resp, rfl, hf, hn, hd,
            Send_do_ok lib run s s1 url method jr p req resp hu hm hj hf hn hd⟩

end State

end Curl

namespace Curl

open State

/-! ## The claims -/

/-- C1: on a builder whose `Url` is empty, whatever its other fields hold, each of `Get`,
`Post`, `Put`, `PUT`, `Delete` and `PATCH` returns a nil response and the error
`Lack of request url`; the trace is empty, so no transport request was built and the
client was not called, and the builder is as it was. -/
theorem C1_missing_url {V : Type} (lib : Lib V) (run : Run V) (s : State V)
    (h : s.this.Url = "") :
    ∀ o ∈ [s.Get lib run, s.Post lib run, s.Put lib run, s.PUT lib run, s.Delete lib run,
        s.PATCH lib run],
      o.response = none ∧ o.err = some "Lack of request url" ∧ o.trace = [] ∧ o.state = s := by
  intro o ho
  simp only [List.mem_cons, List.mem_singleton, List.not_mem_nil, or_false] at ho
  rcases ho with rfl | rfl | rfl | rfl | rfl | rfl <;>
    simp [Get, Post, Put, PUT, Delete, PATCH, Send, h]

/-- C1 on a builder with method, headers and body configured. -/
theorem C1_missing_url_witness :
    Demo.noUrl.this.Url = "" ∧
    ∀ o ∈ [Demo.noUrl.Get Demo.lib Demo.online, Demo.noUrl.Post Demo.lib Demo.online,
        Demo.noUrl.Put Demo.lib Demo.online, Demo.noUrl.PUT Demo.lib Demo.online,
        Demo.noUrl.Delete Demo.lib Demo.online, Demo.noUrl.PATCH Demo.lib Demo.online],
      o.response = none ∧ o.err = some "Lack of request url" ∧ o.trace = [] ∧
        o.state = Demo.noUrl :=
  ⟨rfl, C1_missing_url Demo.lib Demo.online Demo.noUrl rfl⟩

end Curl


namespace Curl

open State

theorem formPayload_other_method {V : Type} (lib : Lib V) (run : Run V) (s : State V)
    (method : String) (jr : Option String) (h : ¬ (method = "POST" ∨ method = "PUT")) :
    s.formPayload lib run method jr = some (s, none) := by
  simp [formPayload, h]

/-- What the trace of a call with a non-empty URL and a method that is neither `POST` nor
`PUT` looks like: one call of `http.NewRequest`, with a nil payload. -/
theorem Send_other_method {V : Type} (lib : Lib V) (run : Run V) (s : State V)
    (url method : String) (hu : url ≠ "") (hm : method ≠ "")
    (h : ¬ (method = "POST" ∨ method = "PUT")) :
    (s.Send lib run url method).built = [(method, url, none)] ∧
      ∀ r ∈ (s.Send lib run url method).sent, r.Body = none ∧ r.Method = method := by
  have hj : s.withClient.jsonPayload lib method = .ok none := by simp [jsonPayload, h]
  have hf := formPayload_other_method lib run s.withClient method none h
  cases hn : http.NewRequest lib method url none with
  | error e =>
    rw [Send_build_error lib run s _ url method none none e hu hm hj hf hn]
    simp [Outcome.built, Outcome.sent]
  | ok req =>
    obtain ⟨u, _, _, hreq⟩ := NewRequest_ok hn
    cases hd : run.Do (dress run s.this req) with
    | error e =>
      rw [Send_do_error lib run s _ url method none none req e hu hm hj hf hn hd]
      simp [Outcome.built, Outcome.sent, dress, hreq]
    | ok resp =>
      rw [Send_do_ok lib run s _ url method none none req resp hu hm hj hf hn hd]
      simp [Outcome.built, Outcome.sent, dress, hreq]

/-- C2: for a non-empty URL, `Send` with method `GET` or `DELETE` calls `http.NewRequest`
exactly once, with a nil payload, whatever `PostData` and `PostDataQuery` hold, and a
request that reaches the client has no body; `Get` and `Delete` do the same with the
configured URL. -/
theorem C2_get_delete_no_body {V : Type} (lib : Lib V) (run : Run V) (s : State V)
    (url method : String) (hu : url ≠ "") (hm : method = "GET" ∨ method = "DELETE") :
    ((s.Send lib run url method).built = [(method, url, none)] ∧
      ∀ r ∈ (s.Send lib run url method).sent, r.Body = none) ∧
    (s.this.Url = url →
      ((s.Get lib run).built = [("GET", url, none)] ∧ ∀ r ∈ (s.Get lib run).sent, r.Body = none) ∧
      ((s.Delete lib run).built = [("DELETE", url, none)] ∧
        ∀ r ∈ (s.Delete lib run).sent, r.Body = none)) := by
  have key : ∀ m : String, m = "GET" ∨ m = "DELETE" →
      (s.Send lib run url m).built = [(m, url, none)] ∧
        ∀ r ∈ (s.Send lib run url m).sent, r.Body = none := by
    intro m h
    have h1 : m ≠ "" := by rcases h with rfl | rfl <;> decide
    have h2 : ¬ (m = "POST" ∨ m = "PUT") := by rcases h with rfl | rfl <;> decide
    have := Send_other_method lib run s url m hu h1 h2
    exact ⟨this.1, fun r hr => (this.2 r hr).1⟩
  refine ⟨key method hm, ?_⟩
  intro h
  subst h
  exact ⟨key "GET" (Or.inl rfl), key "DELETE" (Or.inr rfl)⟩

/-- C2 on a builder that has both a JSON body and a form body configured. -/
theorem C2_get_delete_no_body_witness :
    ("http://host/path" ≠ "" ∧ ("DELETE" = "GET" ∨ "DELETE" = "DELETE")) ∧
    ((Demo.jsonAndForm.Send Demo.lib Demo.online "http://host/path" "DELETE").built
        = [("DELETE", "http://host/path", none)] ∧
      ∀ r ∈ (Demo.jsonAndForm.Send Demo.lib Demo.online "http://host/path" "DELETE").sent,
        r.Body = none) ∧
    (Demo.jsonAndForm.this.Url = "http://host/path" →
      ((Demo.jsonAndForm.Get Demo.lib Demo.online).built = [("GET", "http://host/path", none)] ∧
        ∀ r ∈ (Demo.jsonAndForm.Get Demo.lib Demo.online).sent, r.Body = none) ∧
      ((Demo.jsonAndForm.Delete Demo.lib Demo.online).built
          = [("DELETE", "http://host/path", none)] ∧
        ∀ r ∈ (Demo.jsonAndForm.Delete Demo.lib Demo.online).sent, r.Body = none)) :=
  ⟨⟨by decide, Or.inr rfl⟩,
    C2_get_delete_no_body Demo.lib Demo.online Demo.jsonAndForm "http://host/path" "DELETE"
      (by decide) (Or.inr rfl)⟩

/-- C7: when a request reaches the client and `Do` fails on it with the error `e`, `Send`
returns a nil response together with `e` itself, and the trace holds no parsing of headers
or body and no closing of a body. -/
theorem C7_transport_error {V : Type} (lib : Lib V) (run : Run V) (s : State V)
    (url method : String) (r : http.Request) (e : GoError)
    (hr : r ∈ (s.Send lib run url method).sent) (he : run.Do r = .error e) :
    (s.Send lib run url method).response = none ∧ (s.Send lib run url method).err = some e ∧
      (s.Send lib run url method).touchedResponse = false ∧
      (s.Send lib run url method).trace =
        [Event.printf s.this.PostData] ++
          ((s.Send lib run url method).built.map (fun b => Event.newRequest b.1 b.2.1 b.2.2)) ++
          [Event.clientDo r] := by
  by_cases hu : url = ""
  · simp [Send, hu, Outcome.sent] at hr
  by_cases hm : method = ""
  · simp [Send, hu, hm, Outcome.sent] at hr
  rcases Send_cases lib run s url method hu hm with
    ⟨e1, _, h⟩ | ⟨jr, _, _, h⟩ | ⟨jr, s1, p, e1, _, _, _, h⟩ |
    ⟨jr, s1, p, req, e1, _, _, _, hd, h⟩ | ⟨jr, s1, p, req, resp, _, _, _, hd, h⟩
  · simp [h, Outcome.sent] at hr
  · simp [h, Outcome.sent, Outcome.panicked] at hr
  · simp [h, Outcome.sent] at hr
  · rw [h] at hr ⊢
    simp only [Outcome.sent, List.filterMap_cons, List.filterMap_nil, List.mem_singleton] at hr
    subst hr
    rw [hd] at he
    simp only [Except.error.injEq] at he
    subst he
    simp [Outcome.touchedResponse, Outcome.built]
  · rw [h] at hr
    simp only [Outcome.sent, List.filterMap_cons, List.filterMap_nil, List.mem_singleton] at hr
    subst hr
    rw [hd] at he
    simp at he

/-- C7 on a `POST` to a host that refuses the connection. -/
theorem C7_transport_error_witness :
    ((Demo.jsonAndForm.Send Demo.lib Demo.offline "http://host/path" "POST").sent =
        [{ Method := "POST",
           URL := some { Scheme := "http", Host := "host", Path := "/path", RawQuery := "",
                         Fragment := "" },
           Header := some [], Body := some "\x7b\x22a\x22:1\x7d", Host := "host",
           PostForm := none }]) ∧
    (Demo.jsonAndForm.Send Demo.lib Demo.offline "http://host/path" "POST").response = none ∧
    (Demo.jsonAndForm.Send Demo.lib Demo.offline "http://host/path" "POST").err =
      some "dial tcp 10.0.0.1:80: connect: connection refused" ∧
    (Demo.jsonAndForm.Send Demo.lib Demo.offline "http://host/path" "POST").touchedResponse
      = false ∧
    (Demo.jsonAndForm.Send Demo.lib Demo.offline "http://host/path" "POST").trace =
      [Event.printf Demo.jsonAndForm.this.PostData] ++
        ((Demo.jsonAndForm.Send Demo.lib Demo.offline "http://host/path" "POST").built.map
          (fun b => Event.newRequest b.1 b.2.1 b.2.2)) ++
        [Event.clientDo
          { Method := "POST",
            URL := some { Scheme := "http", Host := "host", Path := "/path", RawQuery := "",
                          Fragment := "" },
            Header := some [], Body := some "\x7b\x22a\x22:1\x7d", Host := "host",
            PostForm := none }] :=
  ⟨by decide,
    C7_transport_error Demo.lib Demo.offline Demo.jsonAndForm "http://host/path" "POST" _ _
      (by decide) rfl⟩

end Curl

namespace Curl

open State

/-- C9: each of the seven setters stores its argument, whatever it is, in its own field of
the builder it was called on and leaves the nine other fields as they were; the builder
so updated is what the setter returns, which is what lets calls be chained. -/
theorem C9_setters {V : Type} (this : Request V) (method url : String)
    (headers cookies queries : GoMap String) (postData : Option V)
    (form : Option (GoMap V)) :
    ((this.SetMethod method).Method = method ∧
      (this.SetMethod method).cli = this.cli ∧ (this.SetMethod method).req = this.req ∧
      (this.SetMethod method).Raw = this.Raw ∧ (this.SetMethod method).Url = this.Url ∧
      (this.SetMethod method).Headers = this.Headers ∧
      (this.SetMethod method).Cookies = this.Cookies ∧
      (this.SetMethod method).Queries = this.Queries ∧
      (this.SetMethod method).PostData = this.PostData ∧
      (this.SetMethod method).PostDataQuery = this.PostDataQuery) ∧
    ((this.SetUrl url).Url = url ∧
      (this.SetUrl url).cli = this.cli ∧ (this.SetUrl url).req = this.req ∧
      (this.SetUrl url).Raw = this.Raw ∧ (this.SetUrl url).Method = this.Method ∧
      (this.SetUrl url).Headers = this.Headers ∧ (this.SetUrl url).Cookies = this.Cookies ∧
      (this.SetUrl url).Queries = this.Queries ∧ (this.SetUrl url).PostData = this.PostData ∧
      (this.SetUrl url).PostDataQuery = this.PostDataQuery) ∧
    ((this.SetHeaders headers).Headers = headers ∧
      (this.SetHeaders headers).cli = this.cli ∧ (this.SetHeaders headers).req = this.req ∧
      (this.SetHeaders headers).Raw = this.Raw ∧
      (this.SetHeaders headers).Method = this.Method ∧
      (this.SetHeaders headers).Url = this.Url ∧
      (this.SetHeaders headers).Cookies = this.Cookies ∧
      (this.SetHeaders headers).Queries = this.Queries ∧
      (this.SetHeaders headers).PostData = this.PostData ∧
      (this.SetHeaders headers).PostDataQuery = this.PostDataQuery) ∧
    ((this.SetCookies cookies).Cookies = cookies ∧
      (this.SetCookies cookies).cli = this.cli ∧ (this.SetCookies cookies).req = this.req ∧
      (this.SetCookies cookies).Raw = this.Raw ∧
      (this.SetCookies cookies).Method = this.Method ∧
      (this.SetCookies cookies).Url = this.Url ∧
      (this.SetCookies cookies).Headers = this.Headers ∧
      (this.SetCookies cookies).Queries = this.Queries ∧
      (this.SetCookies cookies).PostData = this.PostData ∧
      (this.SetCookies cookies).PostDataQuery = this.PostDataQuery) ∧
    ((this.SetQueries queries).Queries = queries ∧
      (this.SetQueries queries).cli = this.cli ∧ (this.SetQueries queries).req = this.req ∧
      (this.SetQueries queries).Raw = this.Raw ∧
      (this.SetQueries queries).Method = this.Method ∧
      (this.SetQueries queries).Url = this.Url ∧
      (this.SetQueries queries).Headers = this.Headers ∧
      (this.SetQueries queries).Cookies = this.Cookies ∧
      (this.SetQueries queries).PostData = this.PostData ∧
      (this.SetQueries queries).PostDataQuery = this.PostDataQuery) ∧
    ((this.SetPostData postData).PostData = postData ∧
      (this.SetPostData postData).cli = this.cli ∧ (this.SetPostData postData).req = this.req ∧
      (this.SetPostData postData).Raw = this.Raw ∧
      (this.SetPostData postData).Method = this.Method ∧
      (this.SetPostData postData).Url = this.Url ∧
      (this.SetPostData postData).Headers = this.Headers ∧
      (this.SetPostData postData).Cookies = this.Cookies ∧
      (this.SetPostData postData).Queries = this.Queries ∧
      (this.SetPostData postData).PostDataQuery = this.PostDataQuery) ∧
    ((this.SetPostDataUrlEncode form).PostDataQuery = form ∧
      (this.SetPostDataUrlEncode form).cli = this.cli ∧
      (this.SetPostDataUrlEncode form).req = this.req ∧
      (this.SetPostDataUrlEncode form).Raw = this.Raw ∧
      (this.SetPostDataUrlEncode form).Method = this.Method ∧
      (this.SetPostDataUrlEncode form).Url = this.Url ∧
      (this.SetPostDataUrlEncode form).Headers = this.Headers ∧
      (this.SetPostDataUrlEncode form).Cookies = this.Cookies ∧
      (this.SetPostDataUrlEncode form).Queries = this.Queries ∧
      (this.SetPostDataUrlEncode form).PostData = this.PostData) := by
  and_intros <;> rfl

/-! ### The `Method` field -/

theorem onReq_setMethod {V : Type} (s : State V) (m : String)
    (f : http.Request → Option http.Request) :
    (s.setMethod m).onReq f = (s.onReq f).map (fun t => t.setMethod m) := by
  unfold onReq
  cases h : s.this.req with
  | none => simp [setMethod, Request.SetMethod, h]
  | some a =>
    simp only [setMethod, Request.SetMethod, h]
    cases h2 : s.heap[a]? with
    | none => simp
    | some r =>
      simp only
      cases f r <;> simp [h]

theorem foldlM_onReq_setMethod {V α : Type} (g : α → http.Request → Option http.Request)
    (l : List α) (s : State V) (m : String) :
    l.foldlM (fun (t : State V) x => t.onReq (g x)) (s.setMethod m) =
      (l.foldlM (fun (t : State V) x => t.onReq (g x)) s).map (fun t => t.setMethod m) := by
  induction l generalizing s with
  | nil => simp
  | cons x xs ih =>
    simp only [List.foldlM_cons, onReq_setMethod, Option.bind_eq_bind]
    cases h : s.onReq (g x) with
    | none => simp
    | some t => simp [ih]

theorem formPayload_setMethod {V : Type} (lib : Lib V) (run : Run V) (s : State V)
    (m method : String) (jr : Option String) :
    (s.setMethod m).withClient.formPayload lib run method jr =
      (s.withClient.formPayload lib run method jr).map (fun sp => (sp.1.setMethod m, sp.2)) := by
  have e : (s.setMethod m).withClient = s.withClient.setMethod m := rfl
  rw [e]
  generalize s.withClient = t
  unfold formPayload
  by_cases hm : method = "POST" ∨ method = "PUT"
  · simp only [hm, if_true]
    have e2 : (t.setMethod m).this.PostDataQuery = t.this.PostDataQuery := rfl
    rw [e2]
    cases t.this.PostDataQuery with
    | none => simp
    | some form =>
      simp only [onReq_setMethod]
      cases h1 : t.onReq (fun r => some { r with PostForm := some [] }) with
      | none => simp
      | some t1 =>
        have key := foldlM_onReq_setMethod
          (fun (kv : String × V) (r : http.Request) =>
            some { r with
              PostForm := some (Values.Add (r.PostForm.getD []) kv.1 (lib.sprint kv.2)) })
          (run.rangeForm form) t1 m
        simp only [Option.map_some']
        rw [key]
        cases h2 : List.foldlM (fun (t : State V) (kv : String × V) => t.onReq (fun r =>
            some { r with
              PostForm := some (Values.Add (r.PostForm.getD []) kv.1 (lib.sprint kv.2)) }))
            t1 (run.rangeForm form) with
        | none => simp
        | some t2 => simp
  · simp [hm]

/-- The outcome of `Send` on a builder whose `Method` field was replaced is the outcome on
the original builder, with the same replacement made in the final builder. -/
theorem Send_setMethod {V : Type} (lib : Lib V) (run : Run V) (s : State V)
    (m url method : String) :
    (s.setMethod m).Send lib run url method =
      { s.Send lib run url method with state := (s.Send lib run url method).state.setMethod m } := by
  by_cases hu : url = ""
  · simp [Send, hu]
  by_cases hm : method = ""
  · simp [Send, hu, hm]
  have hj : ∀ x, s.withClient.jsonPayload lib method = x →
      (s.setMethod m).withClient.jsonPayload lib method = x := fun x h => h
  have hf : ∀ jr s1 p, s.withClient.formPayload lib run method jr = some (s1, p) →
      (s.setMethod m).withClient.formPayload lib run method jr = some (s1.setMethod m, p) := by
    intro jr s1 p h
    rw [formPayload_setMethod, h]
    rfl
  have hd : ∀ req, dress run (s.setMethod m).this req = dress run s.this req := fun _ => rfl
  rcases Send_cases lib run s url method hu hm with
    ⟨e1, h1, h⟩ | ⟨jr, h1, h2, h⟩ | ⟨jr, s1, p, e1, h1, h2, h3, h⟩ |
    ⟨jr, s1, p, req, e1, h1, h2, h3, h4, h⟩ | ⟨jr, s1, p, req, resp, h1, h2, h3, h4, h⟩
  · rw [h, Send_json_error lib run _ url method e1 hu hm (hj _ h1)]
    rfl
  · rw [h, Send_form_panic lib run _ url method jr hu hm (hj _ h1)
      (by rw [formPayload_setMethod, h2]; rfl)]
    rfl
  · rw [h, Send_build_error lib run _ _ url method jr p e1 hu hm (hj _ h1) (hf _ _ _ h2) h3]
    rfl
  · rw [h, Send_do_error lib run _ _ url method jr p req e1 hu hm (hj _ h1) (hf _ _ _ h2) h3
      (by rw [hd]; exact h4)]
    rfl
  · rw [h, Send_do_ok lib run _ _ url method jr p req resp hu hm (hj _ h1) (hf _ _ _ h2) h3
      (by rw [hd]; exact h4)]
    rfl

/-- The verb of every transport request `Send` builds is the argument `method`. -/
theorem Send_verb {V : Type} (lib : Lib V) (run : Run V) (s : State V) (url method : String) :
    (∀ b ∈ (s.Send lib run url method).built, b.1 = method ∧ b.2.1 = url) ∧
      ∀ r ∈ (s.Send lib run url method).sent, r.Method = method := by
  by_cases hu : url = ""
  · simp [Send, hu, Outcome.built, Outcome.sent]
  by_cases hm : method = ""
  · simp [Send, hu, hm, Outcome.built, Outcome.sent]
  rcases Send_cases lib run s url method hu hm with
    ⟨e1, h1, h⟩ | ⟨jr, h1, h2, h⟩ | ⟨jr, s1, p, e1, h1, h2, h3, h⟩ |
    ⟨jr, s1, p, req, e1, h1, h2, h3, h4, h⟩ | ⟨jr, s1, p, req, resp, h1, h2, h3, h4, h⟩
  · simp [h, Outcome.built, Outcome.sent]
  · simp [h, Outcome.built, Outcome.sent, Outcome.panicked]
  · simp [h, Outcome.built, Outcome.sent]
  · obtain ⟨u, _, _, hreq⟩ := NewRequest_ok h3
    simp [h, Outcome.built, Outcome.sent, dress, hreq]
  · obtain ⟨u, _, _, hreq⟩ := NewRequest_ok h3
    simp [h, Outcome.built, Outcome.sent, dress, hreq]

end Curl

namespace Curl

open State

/-- C10: the `Method` field never influences a send.  Replacing it changes neither the
values `Send` and the six triggers return nor their trace (validation, the transport
request built, the request sent), and the final builder differs by that replacement only;
the verb of every request built or sent is the argument of `Send`, hence the fixed verb of
the trigger; after `SetMethod("POST")`, `Get` builds a `GET` request with a nil payload. -/
theorem C10_method_field_unused {V : Type} (lib : Lib V) (run : Run V) (s : State V)
    (m url method : String) :
    ((s.setMethod m).Send lib run url method = (s.Send lib run url method).withMethod m ∧
      (s.setMethod m).Get lib run = (s.Get lib run).withMethod m ∧
      (s.setMethod m).Post lib run = (s.Post lib run).withMethod m ∧
      (s.setMethod m).Put lib run = (s.Put lib run).withMethod m ∧
      (s.setMethod m).PUT lib run = (s.PUT lib run).withMethod m ∧
      (s.setMethod m).Delete lib run = (s.Delete lib run).withMethod m ∧
      (s.setMethod m).PATCH lib run = (s.PATCH lib run).withMethod m) ∧
    ((∀ b ∈ (s.Send lib run url method).built, b.1 = method) ∧
      (∀ r ∈ (s.Send lib run url method).sent, r.Method = method) ∧
      (∀ r ∈ (s.Get lib run).sent, r.Method = "GET") ∧
      (∀ r ∈ (s.Post lib run).sent, r.Method = "POST") ∧
      (∀ r ∈ (s.Put lib run).sent, r.Method = "PUT") ∧
      (∀ r ∈ (s.PUT lib run).sent, r.Method = "PUT") ∧
      (∀ r ∈ (s.Delete lib run).sent, r.Method = "DELETE") ∧
      (∀ r ∈ (s.PATCH lib run).sent, r.Method = "PATCH")) ∧
    (s.this.Url ≠ "" →
      ((s.setMethod "POST").Get lib run).built = [("GET", s.this.Url, none)] ∧
      ∀ r ∈ ((s.setMethod "POST").Get lib run).sent, r.Method = "GET" ∧ r.Body = none) := by
  refine ⟨⟨Send_setMethod lib run s m url method, ?_, ?_, ?_, ?_, ?_, ?_⟩,
    ⟨fun b hb => ((Send_verb lib run s url method).1 b hb).1,
      (Send_verb lib run s url method).2, (Send_verb lib run s _ "GET").2,
      (Send_verb lib run s _ "POST").2, (Send_verb lib run s _ "PUT").2,
      (Send_verb lib run s _ "PUT").2, (Send_verb lib run s _ "DELETE").2,
      (Send_verb lib run s _ "PATCH").2⟩, ?_⟩
  · exact Send_setMethod lib run s m s.this.Url "GET"
  · exact Send_setMethod lib run s m s.this.Url "POST"
  · exact Send_setMethod lib run s m s.this.Url "PUT"
  · exact Send_setMethod lib run s m s.this.Url "PUT"
  · exact Send_setMethod lib run s m s.this.Url "DELETE"
  · exact Send_setMethod lib run s m s.this.Url "PATCH"
  · intro hu
    have := Send_other_method lib run (s.setMethod "POST") s.this.Url "GET" hu (by decide)
      (by decide)
    exact ⟨this.1, fun r hr => ⟨(this.2 r hr).2, (this.2 r hr).1⟩⟩

/-- C10 on a builder with a JSON body and a form body: after `SetMethod("POST")`, `Get`
sends a `GET` without a body. -/
theorem C10_method_field_unused_witness :
    Demo.jsonAndForm.this.Url ≠ "" ∧
    ((Demo.jsonAndForm.setMethod "POST").Get Demo.lib Demo.online).built
      = [("GET", "http://host/path", none)] ∧
    ∀ r ∈ ((Demo.jsonAndForm.setMethod "POST").Get Demo.lib Demo.online).sent,
      r.Method = "GET" ∧ r.Body = none :=
  ⟨by decide,
    (C10_method_field_unused Demo.lib Demo.online Demo.jsonAndForm "POST" "" "").2.2
      (by decide)⟩

/-! ### The payload -/

theorem formPayload_some {V : Type} (lib : Lib V) (run : Run V) (s : State V)
    (method : String) (jr : Option String) (a : Nat) (ha : s.this.req = some a)
    (hlt : a < s.heap.length) :
    ∃ s1, s.formPayload lib run method jr = some (s1,
      if (method = "POST" ∨ method = "PUT") ∧ s.this.PostDataQuery.isSome = true
        then jr else none) := by
  unfold formPayload
  by_cases hm : method = "POST" ∨ method = "PUT"
  · simp only [hm, if_true, true_and]
    cases hq : s.this.PostDataQuery with
    | none => exact ⟨s, by simp⟩
    | some form =>
      obtain ⟨r, hr⟩ : ∃ r, s.heap[a]? = some r := ⟨s.heap[a], List.getElem?_eq_getElem hlt⟩
      have first : s.onReq (fun r => some { r with PostForm := some [] }) =
          some { s with heap := s.heap.set a { r with PostForm := some [] } } :=
        onReq_some ha hr rfl
      have key := foldlM_onReq
        (fun (kv : String × V) (r : http.Request) =>
          some { r with
            PostForm := some (Values.Add (r.PostForm.getD []) kv.1 (lib.sprint kv.2)) })
        (fun r kv => { r with
            PostForm := some (Values.Add (r.PostForm.getD []) kv.1 (lib.sprint kv.2)) })
        (fun _ => True) (fun _ _ _ => ⟨rfl, trivial⟩) (run.rangeForm form)
        ({ s with heap := s.heap.set a { r with PostForm := some [] } } : State V) a
        { r with PostForm := some [] } ha (by simp [List.getElem?_set_self hlt]) trivial
      beta_reduce at key
      rw [first]
      simp only
      rw [key]
      simp only [Option.isSome_some, if_true]
      exact ⟨_, rfl⟩
  · exact ⟨s, by simp [hm]⟩

/-- Every call of `http.NewRequest` in a trace of `Send` has the arguments `method`, `url`
and the payload `State.payload`. -/
theorem built_eq {V : Type} (lib : Lib V) (run : Run V) (s : State V) (url method : String) :
    ∀ b ∈ (s.Send lib run url method).built, b = (method, url, s.payload lib method) := by
  by_cases hu : url = ""
  · simp [Send, hu, Outcome.built]
  by_cases hm : method = ""
  · simp [Send, hu, hm, Outcome.built]
  have hp : ∀ jr s1 p, s.withClient.jsonPayload lib method = .ok jr →
      s.withClient.formPayload lib run method jr = some (s1, p) → p = s.payload lib method := by
    intro jr s1 p h1 h2
    rw [(formPayload_frame h2).2.2]
    simp only [payload, h1]
  rcases Send_cases lib run s url method hu hm with
    ⟨e1, h1, h⟩ | ⟨jr, h1, h2, h⟩ | ⟨jr, s1, p, e1, h1, h2, h3, h⟩ |
    ⟨jr, s1, p, req, e1, h1, h2, h3, h4, h⟩ | ⟨jr, s1, p, req, resp, h1, h2, h3, h4, h⟩
  · simp [h, Outcome.built]
  · simp [h, Outcome.built, Outcome.panicked]
  · simp [h, Outcome.built, hp jr s1 p h1 h2]
  · simp [h, Outcome.built, hp jr s1 p h1 h2]
  · simp [h, Outcome.built, hp jr s1 p h1 h2]

/-- Every request in a trace of `Send` that reaches the client is the request
`http.NewRequest` made from the parsed URL, the method and the payload, after `dress`. -/
theorem sent_eq {V : Type} (lib : Lib V) (run : Run V) (s : State V) (url method : String) :
    ∀ r ∈ (s.Send lib run url method).sent, ∃ u, lib.urlParse url = .ok u ∧
      r = dress run s.this
        { Method := method, URL := some u, Header := some [], Body := s.payload lib method,
          Host := u.Host, PostForm := none } := by
  by_cases hu : url = ""
  · simp [Send, hu, Outcome.sent]
  by_cases hm : method = ""
  · simp [Send, hu, hm, Outcome.sent]
  have hp : ∀ jr s1 p, s.withClient.jsonPayload lib method = .ok jr →
      s.withClient.formPayload lib run method jr = some (s1, p) → p = s.payload lib method := by
    intro jr s1 p h1 h2
    rw [(formPayload_frame h2).2.2]
    simp only [payload, h1]
  rcases Send_cases lib run s url method hu hm with
    ⟨e1, h1, h⟩ | ⟨jr, h1, h2, h⟩ | ⟨jr, s1, p, e1, h1, h2, h3, h⟩ |
    ⟨jr, s1, p, req, e1, h1, h2, h3, h4, h⟩ | ⟨jr, s1, p, req, resp, h1, h2, h3, h4, h⟩
  · simp [h, Outcome.sent]
  · simp [h, Outcome.sent, Outcome.panicked]
  · simp [h, Outcome.sent]
  · obtain ⟨u, hu1, _, hreq⟩ := NewRequest_ok h3
    intro r hr
    simp only [h, Outcome.sent, List.filterMap_cons, List.filterMap_nil,
      List.mem_singleton] at hr
    exact ⟨u, hu1, by rw [hr, hreq, hp jr s1 p h1 h2]⟩
  · obtain ⟨u, hu1, _, hreq⟩ := NewRequest_ok h3
    intro r hr
    simp only [h, Outcome.sent, List.filterMap_cons, List.filterMap_nil,
      List.mem_singleton] at hr
    exact ⟨u, hu1, by rw [hr, hreq, hp jr s1 p h1 h2]⟩

end Curl

namespace Curl

open State

theorem payload_of_no_form {V : Type} (lib : Lib V) (s : State V) (method : String)
    (h : s.this.PostDataQuery = none) : s.payload lib method = none := by
  simp [payload, h]

theorem sent_body {V : Type} (lib : Lib V) (run : Run V) (s : State V) (url method : String) :
    ∀ r ∈ (s.Send lib run url method).sent, r.Body = s.payload lib method := by
  intro r hr
  obtain ⟨u, _, e⟩ := sent_eq lib run s url method r hr
  rw [e]
  rfl

/-- Once lines 164 to 184 are passed, `http.NewRequest` is called exactly once. -/
theorem built_of_form {V : Type} (lib : Lib V) (run : Run V) (s s1 : State V)
    (url method : String) (jr p : Option String) (hu : url ≠ "") (hm : method ≠ "")
    (h1 : s.withClient.jsonPayload lib method = .ok jr)
    (h2 : s.withClient.formPayload lib run method jr = some (s1, p)) :
    (s.Send lib run url method).built = [(method, url, p)] := by
  cases hn : http.NewRequest lib method url p with
  | error e =>
    rw [Send_build_error lib run s s1 url method jr p e hu hm h1 h2 hn]
    simp [Outcome.built]
  | ok req =>
    cases hd : run.Do (dress run s.this req) with
    | error e =>
      rw [Send_do_error lib run s s1 url method jr p req e hu hm h1 h2 hn hd]
      simp [Outcome.built]
    | ok resp =>
      rw [Send_do_ok lib run s s1 url method jr p req resp hu hm h1 h2 hn hd]
      simp [Outcome.built]

/-- C3, at the failing input: `PostData` is the map with `a: 1`, which `json.Marshal`
encodes, `PostDataQuery` is nil, the URL is set; `Post`, `Put` and `PUT` call
`http.NewRequest` with a nil payload, and the request that reaches the client has no
body. -/
theorem C3_json_body_dropped :
    Demo.lib.jsonMarshal (Demo.Val.ints [("a", 1)]) = .ok "\x7b\x22a\x22:1\x7d" ∧
    Demo.jsonOnly.this.PostData = some (Demo.Val.ints [("a", 1)]) ∧
    Demo.jsonOnly.this.PostDataQuery = none ∧
    (Demo.jsonOnly.Post Demo.lib Demo.online).built = [("POST", "http://host/path", none)] ∧
    (Demo.jsonOnly.Post Demo.lib Demo.online).sent.map (fun r => r.Body) = [none] ∧
    (Demo.jsonOnly.Put Demo.lib Demo.online).built = [("PUT", "http://host/path", none)] ∧
    (Demo.jsonOnly.Put Demo.lib Demo.online).sent.map (fun r => r.Body) = [none] ∧
    (Demo.jsonOnly.PUT Demo.lib Demo.online).built = [("PUT", "http://host/path", none)] ∧
    (Demo.jsonOnly.PUT Demo.lib Demo.online).sent.map (fun r => r.Body) = [none] := by
  refine ⟨rfl, rfl, rfl, ?_⟩
  decide

/-- C4, at the failing input: with the JSON body `a: 1` and the form body `k: v` both
configured, lines 177 to 181 write the form pairs, whose encoding is `k=v`, into the
`PostForm` of the request object `this.req` points to at that moment (address 0), and line
189 then makes `this.req` point to the new request (address 1): the request `Post` sends
has the JSON text as its body and a nil `PostForm`.  The same happens with the form body
alone: the pairs end up on the old object, and the request sent has no body and a nil
`PostForm`. -/
theorem C4_form_body_not_sent :
    url.Encode [("k", ["v"])] = "k=v" ∧
    (Demo.jsonAndForm.Post Demo.lib Demo.online).built
      = [("POST", "http://host/path", some "\x7b\x22a\x22:1\x7d")] ∧
    (Demo.jsonAndForm.Post Demo.lib Demo.online).sent.map (fun r => (r.Body, r.PostForm))
      = [(some "\x7b\x22a\x22:1\x7d", none)] ∧
    ((Demo.jsonAndForm.Post Demo.lib Demo.online).state.heap.map (fun r => r.PostForm))
      = [some [("k", ["v"])], none] ∧
    (Demo.jsonAndForm.Post Demo.lib Demo.online).state.this.req = some 1 ∧
    (Demo.formOnly.Post Demo.lib Demo.online).built = [("POST", "http://host/path", none)] ∧
    (Demo.formOnly.Post Demo.lib Demo.online).sent.map (fun r => (r.Body, r.PostForm))
      = [(none, none)] ∧
    ((Demo.formOnly.Post Demo.lib Demo.online).state.heap.map (fun r => r.PostForm))
      = [some [("k", ["v"])], none] ∧
    (Demo.formOnly.Post Demo.lib Demo.online).state.this.req = some 1 :=
  ⟨by decide, by decide, by decide, by decide, by decide, by decide, by decide, by decide,
    by decide⟩

/-! ### Queries -/

theorem configured_of_mem {l : GoMap String} (hn : (l.map Prod.fst).Nodup) {k v : String}
    (h : (k, v) ∈ l) : configured l k = [v] := by
  induction l with
  | nil => simp at h
  | cons hd tl ih =>
    obtain ⟨k1, v1⟩ := hd
    simp only [List.map_cons, List.nodup_cons] at hn
    simp only [List.mem_cons, Prod.mk.injEq] at h
    rcases h with ⟨rfl, rfl⟩ | h
    · have : configured tl k = [] := by
        simp only [configured, List.map_eq_nil_iff, List.filter_eq_nil_iff]
        intro kv hkv hk
        apply hn.1
        simp only [decide_eq_true_eq] at hk
        exact List.mem_map.mpr ⟨kv, hkv, hk⟩
      have e : configured ((k, v) :: tl) k = v :: configured tl k := by simp [configured]
      rw [e, this]
    · have hne : k1 ≠ k := by
        intro e
        subst e
        exact hn.1 (List.mem_map.mpr ⟨(k1, v), h, rfl⟩)
      have e : configured ((k1, v1) :: tl) k = configured tl k := by simp [configured, hne]
      rw [e, ih hn.2 h]

theorem configured_of_not_mem {l : GoMap String} {k : String}
    (h : k ∉ l.map Prod.fst) : configured l k = [] := by
  simp only [configured, List.map_eq_nil_iff, List.filter_eq_nil_iff]
  intro kv hkv hk
  apply h
  simp only [decide_eq_true_eq] at hk
  exact List.mem_map.mpr ⟨kv, hkv, hk⟩

theorem Demo.online_fair : Demo.online.Fair :=
  ⟨fun _ => List.Perm.refl _, fun _ => List.Perm.refl _, fun _ => List.Perm.refl _,
    fun _ => List.Perm.refl _⟩

theorem Demo.backwards_fair : Demo.backwards.Fair :=
  ⟨fun _ => List.reverse_perm _, fun _ => List.reverse_perm _, fun _ => List.reverse_perm _,
    fun _ => List.reverse_perm _⟩

end Curl

namespace Curl

open State

/-! ### Headers -/

theorem get_Set_self (h : http.Header) (k v : String) :
    Values.get (h.Set k v) (http.CanonicalMIMEHeaderKey k) = [v] := by
  simp [http.Header.Set, Values.get_put_self]

theorem get_Set_of_ne (h : http.Header) (k v : String) {c : String}
    (hne : http.CanonicalMIMEHeaderKey k ≠ c) :
    Values.get (h.Set k v) c = Values.get h c := by
  simp [http.Header.Set, Values.get_put_of_ne _ _ hne]

theorem get_applyHeaders_of_not_mem (l : GoMap String) (h : http.Header) (c : String)
    (hl : ∀ kv ∈ l, http.CanonicalMIMEHeaderKey kv.1 ≠ c) :
    Values.get (applyHeaders l h) c = Values.get h c := by
  induction l generalizing h with
  | nil => rfl
  | cons x xs ih =>
    have e : applyHeaders (x :: xs) h = applyHeaders xs (h.Set x.1 x.2) := rfl
    rw [e, ih _ (fun kv hkv => hl kv (List.mem_cons_of_mem _ hkv)),
      get_Set_of_ne _ _ _ (hl x (List.mem_cons_self _ _))]

theorem get_applyHeaders_of_mem (l : GoMap String) (h : http.Header) (c v : String)
    (hex : ∃ kv ∈ l, http.CanonicalMIMEHeaderKey kv.1 = c)
    (hall : ∀ kv ∈ l, http.CanonicalMIMEHeaderKey kv.1 = c → kv.2 = v) :
    Values.get (applyHeaders l h) c = [v] := by
  induction l generalizing h with
  | nil => simp at hex
  | cons x xs ih =>
    have e : applyHeaders (x :: xs) h = applyHeaders xs (h.Set x.1 x.2) := rfl
    rw [e]
    by_cases hx : ∃ kv ∈ xs, http.CanonicalMIMEHeaderKey kv.1 = c
    · exact ih _ hx (fun kv hkv => hall kv (List.mem_cons_of_mem _ hkv))
    · have hnot : ∀ kv ∈ xs, http.CanonicalMIMEHeaderKey kv.1 ≠ c :=
        fun kv hkv hc => hx ⟨kv, hkv, hc⟩
      rw [get_applyHeaders_of_not_mem _ _ _ hnot]
      obtain ⟨kv, hkv, hc⟩ := hex
      rcases List.mem_cons.mp hkv with rfl | hmem
      · rw [← hall kv (List.mem_cons_self _ _) hc, ← hc]
        exact get_Set_self _ _ _
      · exact absurd hc (hnot kv hmem)

theorem canon_Cookie : http.CanonicalMIMEHeaderKey "Cookie" = "Cookie" := by decide

theorem get_cookieStep_of_ne (h : http.Header) (kv : String × String) {c : String}
    (hne : c ≠ "Cookie") : Values.get (cookieStep h kv) c = Values.get h c := by
  have hc : http.CanonicalMIMEHeaderKey "Cookie" ≠ c := by
    rw [canon_Cookie]; exact fun e => hne e.symm
  unfold cookieStep
  split <;> exact get_Set_of_ne _ _ _ hc

theorem get_applyCookies_of_ne (l : GoMap String) (h : http.Header) {c : String}
    (hne : c ≠ "Cookie") : Values.get (applyCookies l h) c = Values.get h c := by
  induction l generalizing h with
  | nil => rfl
  | cons x xs ih =>
    have e : applyCookies (x :: xs) h = applyCookies xs (cookieStep h x) := rfl
    rw [e, ih, get_cookieStep_of_ne _ _ hne]

/-- C6, refuted: the header configured under the name `x-test` is on the request sent under
the name `X-Test`, and nothing is stored under `x-test`; and of two configured names that
differ in case only, `x-a` with value `1` and `X-A` with value `2`, the request carries one
header `X-A`, whose value is that of the name visited last. -/
theorem C6_name_not_verbatim :
    Demo.lowerHeader.this.Headers = [("x-test", "v")] ∧
    (Demo.lowerHeader.Get Demo.lib Demo.online).sent.map (fun r => r.Header)
      = [some [("X-Test", ["v"])]] ∧
    Values.get [("X-Test", ["v"])] "x-test" = [] ∧
    Demo.clash.this.Headers = [("x-a", "1"), ("X-A", "2")] ∧
    (Demo.clash.Get Demo.lib Demo.online).sent.map (fun r => r.Header)
      = [some [("X-A", ["2"])]] := by
  decide

/-- C6, amended: let `(k, v)` be a configured header such that no configured name with the
same canonical form carries another value, and such that the canonical form of `k` is not
`Cookie` unless no cookies are configured.  On a request that reaches the client the header
stored under `CanonicalMIMEHeaderKey(k)`, which is `k` itself when `k` is canonical, has
exactly the one value `v`.  The header is set, not added: `setHeaders` leaves exactly `v`
under that name whatever the request held there before. -/
theorem C6_headers_set {V : Type} (lib : Lib V) (run : Run V) (s : State V)
    (url method k v : String) (hfair : run.Fair) (hkv : (k, v) ∈ s.this.Headers)
    (hone : ∀ kv ∈ s.this.Headers,
      http.CanonicalMIMEHeaderKey kv.1 = http.CanonicalMIMEHeaderKey k → kv.2 = v)
    (hck : http.CanonicalMIMEHeaderKey k ≠ "Cookie" ∨ s.this.Cookies = []) :
    (∀ r ∈ (s.Send lib run url method).sent, ∃ h, r.Header = some h ∧
      Values.get h (http.CanonicalMIMEHeaderKey k) = [v] ∧
      (http.CanonicalMIMEHeaderKey k = k → Values.get h k = [v])) ∧
    (∀ a r0 h0, s.this.req = some a → s.heap[a]? = some r0 → r0.Header = some h0 →
      ∃ t r1 h1, s.setHeaders run = some t ∧ t.heap[a]? = some r1 ∧ r1.Header = some h1 ∧
        Values.get h1 (http.CanonicalMIMEHeaderKey k) = [v]) := by
  have hperm := hfair.1 s.this.Headers
  have key : ∀ h0 : http.Header,
      Values.get (applyHeaders (run.rangeHeaders s.this.Headers) h0)
        (http.CanonicalMIMEHeaderKey k) = [v] := by
    intro h0
    apply get_applyHeaders_of_mem
    · exact ⟨(k, v), hperm.mem_iff.mpr hkv, rfl⟩
    · intro kv hmem hc
      exact hone kv (hperm.mem_iff.mp hmem) hc
  constructor
  · intro r hr
    obtain ⟨u, _, e⟩ := sent_eq lib run s url method r hr
    have hh : r.Header = some (applyCookies (run.rangeCookies s.this.Cookies)
        (applyHeaders (run.rangeHeaders s.this.Headers) [])) := by
      rw [e]; rfl
    have hget : Values.get (applyCookies (run.rangeCookies s.this.Cookies)
        (applyHeaders (run.rangeHeaders s.this.Headers) []))
        (http.CanonicalMIMEHeaderKey k) = [v] := by
      rcases hck with hne | hnil
      · rw [get_applyCookies_of_ne _ _ hne]
        exact key []
      · have hp := hfair.2.1 s.this.Cookies
        have : run.rangeCookies s.this.Cookies = [] := by
          apply List.Perm.eq_nil
          rw [hnil] at hp ⊢
          exact hp
        rw [this]
        exact key []
    refine ⟨_, hh, hget, ?_⟩
    intro hcanon
    rw [hcanon] at hget
    exact hget
  · intro a r0 h0 ha hr h0e
    have hlt : a < s.heap.length := by
      rcases List.getElem?_eq_some.mp hr with ⟨hlt, _⟩
      exact hlt
    refine ⟨_, { r0 with Header := some (applyHeaders (run.rangeHeaders s.this.Headers) h0) },
      applyHeaders (run.rangeHeaders s.this.Headers) h0,
      setHeaders_eq run s a r0 h0 ha hr h0e, ?_, rfl, key h0⟩
    simp [List.getElem?_set_self hlt]

/-- C6, amended, on the header `X-Test: v`: the request sent carries `X-Test` with the one
value `v`. -/
theorem C6_headers_set_witness :
    (Demo.online.Fair ∧ ("X-Test", "v") ∈ Demo.withHeader.this.Headers ∧
      (∀ kv ∈ Demo.withHeader.this.Headers,
        http.CanonicalMIMEHeaderKey kv.1 = http.CanonicalMIMEHeaderKey "X-Test" → kv.2 = "v") ∧
      http.CanonicalMIMEHeaderKey "X-Test" = "X-Test") ∧
    (Demo.withHeader.Send Demo.lib Demo.online "http://host/path" "GET").sent.map
      (fun r => r.Header) = [some [("X-Test", ["v"])]] ∧
    ∀ r ∈ (Demo.withHeader.Send Demo.lib Demo.online "http://host/path" "GET").sent,
      ∃ h, r.Header = some h ∧
        Values.get h (http.CanonicalMIMEHeaderKey "X-Test") = ["v"] ∧
        (http.CanonicalMIMEHeaderKey "X-Test" = "X-Test" → Values.get h "X-Test" = ["v"]) :=
  ⟨⟨Demo.online_fair, by decide, by decide, by decide⟩, by decide,
    (C6_headers_set Demo.lib Demo.online Demo.withHeader "http://host/path" "GET" "X-Test" "v"
      Demo.online_fair (by decide) (by decide) (Or.inl (by decide))).1⟩

end Curl

namespace Curl

open State

/-! ### The order of keys in `Encode` -/

namespace url

theorem bytesLe_total (a b : List Char) : bytesLe a b = true ∨ bytesLe b a = true := by
  induction a generalizing b with
  | nil => simp [bytesLe]
  | cons x xs ih =>
    cases b with
    | nil => simp [bytesLe]
    | cons y ys =>
      simp only [bytesLe, Bool.or_eq_true, Bool.and_eq_true, decide_eq_true_eq]
      rcases Nat.lt_trichotomy x.toNat y.toNat with h | h | h
      · exact Or.inl (Or.inl h)
      · rcases ih ys with h1 | h1
        · exact Or.inl (Or.inr ⟨h, h1⟩)
        · exact Or.inr (Or.inr ⟨h.symm, h1⟩)
      · exact Or.inr (Or.inl h)

theorem bytesLe_trans (a b c : List Char) (h1 : bytesLe a b = true) (h2 : bytesLe b c = true) :
    bytesLe a c = true := by
  induction a generalizing b c with
  | nil => simp [bytesLe]
  | cons x xs ih =>
    cases b with
    | nil => simp [bytesLe] at h1
    | cons y ys =>
      cases c with
      | nil => simp [bytesLe] at h2
      | cons z zs =>
        simp only [bytesLe, Bool.or_eq_true, Bool.and_eq_true, decide_eq_true_eq] at h1 h2 ⊢
        rcases h1 with h1 | ⟨e1, h1⟩
        · rcases h2 with h2 | ⟨e2, _⟩
          · exact Or.inl (by omega)
          · exact Or.inl (by omega)
        · rcases h2 with h2 | ⟨e2, h2⟩
          · exact Or.inl (by omega)
          · exact Or.inr ⟨by omega, ih ys zs h1 h2⟩

theorem toNat_inj {x y : Char} (h : x.toNat = y.toNat) : x = y := by
  apply Char.ext
  apply UInt32.ext
  exact h

theorem bytesLe_antisymm (a b : List Char) (h1 : bytesLe a b = true) (h2 : bytesLe b a = true) :
    a = b := by
  induction a generalizing b with
  | nil =>
    cases b with
    | nil => rfl
    | cons y ys => simp [bytesLe] at h2
  | cons x xs ih =>
    cases b with
    | nil => simp [bytesLe] at h1
    | cons y ys =>
      simp only [bytesLe, Bool.or_eq_true, Bool.and_eq_true, decide_eq_true_eq] at h1 h2
      rcases h1 with h1 | ⟨e1, h1⟩
      · rcases h2 with h2 | ⟨e2, _⟩ <;> omega
      · rcases h2 with h2 | ⟨_, h2⟩
        · omega
        · rw [toNat_inj e1, ih ys h1 h2]

theorem strLe_isTotal : IsTotal String strLe := ⟨fun a b => bytesLe_total a.data b.data⟩

theorem strLe_isTrans : IsTrans String strLe :=
  ⟨fun a b c => bytesLe_trans a.data b.data c.data⟩

theorem strLe_isAntisymm : IsAntisymm String strLe :=
  ⟨fun a b h1 h2 => String.ext (bytesLe_antisymm a.data b.data h1 h2)⟩

/-- The encoding depends on the map only, not on the order its keys are stored in. -/
theorem Encode_congr (v1 v2 : Values) (hk : v1.keys.Perm v2.keys)
    (hg : ∀ k, v1.get k = v2.get k) : Encode v1 = Encode v2 := by
  have hs : sortedKeys v1 = sortedKeys v2 := by
    apply @List.eq_of_perm_of_sorted _ strLe strLe_isAntisymm
    · exact ((List.perm_insertionSort strLe _).trans hk).trans
        (List.perm_insertionSort strLe _).symm
    · exact @List.sorted_insertionSort _ strLe _ strLe_isTotal strLe_isTrans _
    · exact @List.sorted_insertionSort _ strLe _ strLe_isTotal strLe_isTrans _
  unfold Encode pairs
  rw [hs]
  congr 4
  funext k
  rw [hg]

end url

namespace Values

theorem keys_put (v : Values) (k : String) (vs : List String) :
    (v.put k vs).keys = if k ∈ v.keys then v.keys else v.keys ++ [k] := by
  induction v with
  | nil => simp [put, keys]
  | cons hd tl ih =>
    obtain ⟨k1, ws⟩ := hd
    by_cases h : k1 = k
    · subst h; simp [put, keys]
    · have h' : ¬ k = k1 := fun e => h e.symm
      simp only [put, h, if_false, keys, List.map_cons, List.mem_cons, h', false_or] at ih ⊢
      rw [ih]
      split <;> simp

theorem mem_keys_Add (v : Values) (k x k1 : String) :
    k1 ∈ (v.Add k x).keys ↔ k1 ∈ v.keys ∨ k1 = k := by
  unfold Add
  rw [keys_put]
  split
  · constructor
    · exact Or.inl
    · rintro (h | rfl)
      · exact h
      · assumption
  · simp

theorem nodup_keys_Add (v : Values) (k x : String) (h : v.keys.Nodup) :
    (v.Add k x).keys.Nodup := by
  unfold Add
  rw [keys_put]
  split
  · exact h
  · rename_i hk
    exact List.Nodup.append h (List.nodup_singleton _) (by simpa using hk)

end Values

theorem mem_keys_applyQueries (l : GoMap String) (q : Values) (k : String) :
    k ∈ (applyQueries l q).keys ↔ k ∈ q.keys ∨ k ∈ l.map Prod.fst := by
  induction l generalizing q with
  | nil => simp [applyQueries]
  | cons x xs ih =>
    have e : applyQueries (x :: xs) q = applyQueries xs (q.Add x.1 x.2) := rfl
    rw [e, ih, Values.mem_keys_Add]
    simp only [List.map_cons, List.mem_cons]
    tauto

theorem nodup_keys_applyQueries (l : GoMap String) (q : Values) (h : q.keys.Nodup) :
    (applyQueries l q).keys.Nodup := by
  induction l generalizing q with
  | nil => exact h
  | cons x xs ih => exact ih _ (Values.nodup_keys_Add _ _ _ h)

theorem nodup_keys_ParseQuery (query : String) : (url.ParseQuery query).keys.Nodup := by
  unfold url.ParseQuery
  have key : ∀ (segs : List (List Char)) (m : Values), m.keys.Nodup →
      (segs.foldl url.parseSegment m).keys.Nodup := by
    intro segs
    induction segs with
    | nil => exact fun m h => h
    | cons x xs ih =>
      intro m h
      apply ih
      unfold url.parseSegment
      split
      · exact h
      · split
        · exact h
        · split
          · exact Values.nodup_keys_Add _ _ _ h
          · exact h
  exact key _ [] (by simp [Values.keys])

/-- The query string `setQueries` writes does not depend on the order in which the loop
visits the configured queries. -/
theorem Encode_applyQueries_perm (l1 l2 : GoMap String) (u : url.URL) (hp : l1.Perm l2)
    (hn : (l2.map Prod.fst).Nodup) :
    url.Encode (applyQueries l1 u.Query) = url.Encode (applyQueries l2 u.Query) := by
  apply url.Encode_congr
  · apply (List.perm_ext_iff_of_nodup
      (nodup_keys_applyQueries _ _ (nodup_keys_ParseQuery _))
      (nodup_keys_applyQueries _ _ (nodup_keys_ParseQuery _))).mpr
    intro k
    rw [mem_keys_applyQueries, mem_keys_applyQueries]
    have : k ∈ l1.map Prod.fst ↔ k ∈ l2.map Prod.fst := (hp.map Prod.fst).mem_iff
    rw [this]
  · intro k
    rw [get_applyQueries, get_applyQueries, configured_perm hp hn]

end Curl

namespace Curl

open State

/-! ### Sending twice -/

theorem formPayload_none_of_bad {V : Type} (lib : Lib V) (run : Run V) (s : State V)
    (method : String) (jr : Option String) (hm : method = "POST" ∨ method = "PUT")
    (hq : s.this.PostDataQuery.isSome = true) (hbad : ¬ s.reqOk) :
    s.formPayload lib run method jr = none := by
  obtain ⟨form, hform⟩ := Option.isSome_iff_exists.mp hq
  have h1 : s.onReq (fun r => some { r with PostForm := some [] }) = none := by
    unfold onReq
    cases ha : s.this.req with
    | none => rfl
    | some a =>
      simp only
      cases hr : s.heap[a]? with
      | none => rfl
      | some r =>
        exfalso
        apply hbad
        rcases List.getElem?_eq_some.mp hr with ⟨hlt, _⟩
        exact ⟨a, ha, hlt⟩
  simp [formPayload, hm, hform, h1]

theorem reqOk_of_formPayload {V : Type} {lib : Lib V} {run : Run V} {s s1 : State V}
    {method : String} {jr p : Option String}
    (h : s.formPayload lib run method jr = some (s1, p)) :
    ¬ ((method = "POST" ∨ method = "PUT") ∧ s.this.PostDataQuery.isSome = true) ∨ s.reqOk := by
  by_cases hc : (method = "POST" ∨ method = "PUT") ∧ s.this.PostDataQuery.isSome = true
  · right
    by_contra hbad
    rw [formPayload_none_of_bad lib run s method jr hc.1 hc.2 hbad] at h
    simp at h
  · exact Or.inl hc

theorem formPayload_again {V : Type} (lib : Lib V) (run : Run V) (s : State V)
    (method : String) (jr : Option String)
    (h : ¬ ((method = "POST" ∨ method = "PUT") ∧ s.this.PostDataQuery.isSome = true) ∨ s.reqOk) :
    ∃ s1, s.formPayload lib run method jr = some (s1,
      if (method = "POST" ∨ method = "PUT") ∧ s.this.PostDataQuery.isSome = true
        then jr else none) := by
  rcases h with h | ⟨a, ha, hlt⟩
  · refine ⟨s, ?_⟩
    rw [if_neg h]
    unfold formPayload
    by_cases hm : method = "POST" ∨ method = "PUT"
    · have hq : s.this.PostDataQuery = none := by
        cases hq : s.this.PostDataQuery with
        | none => rfl
        | some f => exact absurd ⟨hm, by simp [hq]⟩ h
      simp [hm, hq]
    · simp [hm]
  · exact formPayload_some lib run s method jr a ha hlt

theorem jsonPayload_congr {V : Type} (lib : Lib V) (s t : State V) (method : String)
    (h : t.this.PostData = s.this.PostData) :
    t.jsonPayload lib method = s.jsonPayload lib method := by
  simp [jsonPayload, h]

theorem payload_congr {V : Type} (lib : Lib V) (s t : State V) (method : String)
    (h : t.this.sameConfig s.this) : t.payload lib method = s.payload lib method := by
  have hj : t.withClient.jsonPayload lib method = s.withClient.jsonPayload lib method :=
    jsonPayload_congr lib _ _ method h.2.2.2.2.2.1
  simp only [payload, hj, h.2.2.2.2.2.2]

theorem dress_congr {V : Type} (run : Run V) (a b : Request V) (req : http.Request)
    (h : a.sameConfig b) : dress run a req = dress run b req := by
  simp [dress, h.2.2.1, h.2.2.2.1, h.2.2.2.2.1]

/-- What `Send` leaves behind: the configuration is untouched; a second call with the same
arguments gets past lines 164 to 184 exactly when the first did. -/
theorem Send_state {V : Type} (lib : Lib V) (run : Run V) (s : State V)
    (url method : String) :
    (s.Send lib run url method).state.this.sameConfig s.this ∧
    ((s.Send lib run url method).built = [] →
      ∀ run2 : Run V,
        ((s.Send lib run url method).state.Send lib run2 url method).built = [] ∧
        ((s.Send lib run url method).state.Send lib run2 url method).sent = []) ∧
    (∀ b, (s.Send lib run url method).built = [b] →
      ∀ run2 : Run V,
        ((s.Send lib run url method).state.Send lib run2 url method).built = [b]) := by
  have refl : s.this.sameConfig s.this := ⟨rfl, rfl, rfl, rfl, rfl, rfl, rfl⟩
  by_cases hu : url = ""
  · simp [Send, hu, Outcome.built, Outcome.sent, refl]
  by_cases hm : method = ""
  · simp [Send, hu, hm, Outcome.built, Outcome.sent, refl]
  have second : ∀ (jr : Option String) (t : State V) (p : Option String),
      s.withClient.jsonPayload lib method = .ok jr →
      t.this.sameConfig s.this →
      (¬ ((method = "POST" ∨ method = "PUT") ∧ s.this.PostDataQuery.isSome = true) ∨ t.reqOk) →
      p = (if (method = "POST" ∨ method = "PUT") ∧ s.this.PostDataQuery.isSome = true
        then jr else none) →
      ∀ run2 : Run V, (t.Send lib run2 url method).built = [(method, url, p)] := by
    intro jr t p hj hc hok hp run2
    have hj2 : t.withClient.jsonPayload lib method = .ok jr := by
      rw [jsonPayload_congr lib s.withClient t.withClient method hc.2.2.2.2.2.1, hj]
    have hq : t.withClient.this.PostDataQuery = s.this.PostDataQuery := hc.2.2.2.2.2.2
    have hok2 : ¬ ((method = "POST" ∨ method = "PUT") ∧
        t.withClient.this.PostDataQuery.isSome = true) ∨ t.withClient.reqOk := by
      rw [hq]
      exact hok
    obtain ⟨t1, hf⟩ := formPayload_again lib run2 t.withClient method jr hok2
    rw [hq, ← hp] at hf
    exact built_of_form lib run2 t t1 url method jr p hu hm hj2 hf
  rcases Send_cases lib run s url method hu hm with
    ⟨e1, h1, h⟩ | ⟨jr, h1, h2, h⟩ | ⟨jr, s1, p, e1, h1, h2, h3, h⟩ |
    ⟨jr, s1, p, req, e1, h1, h2, h3, h4, h⟩ | ⟨jr, s1, p, req, resp, h1, h2, h3, h4, h⟩
  · rw [h]
    refine ⟨refl, ?_, ?_⟩
    · intro _ run2
      have e := Send_json_error lib run2 s.withClient url method e1 hu hm h1
      simp only [e, Outcome.built, Outcome.sent, List.filterMap_nil, and_self]
    · intro b hb
      simp [Outcome.built] at hb
  · rw [h]
    refine ⟨refl, ?_, ?_⟩
    · intro _ run2
      have h2' : s.withClient.withClient.formPayload lib run2 method jr = none := by
        by_contra hne
        obtain ⟨sp, hq⟩ := Option.ne_none_iff_exists'.mp hne
        have hq' : s.withClient.formPayload lib run2 method jr = some (sp.1, sp.2) := hq
        have := formPayload_again lib run s.withClient method jr (reqOk_of_formPayload hq')
        rw [h2] at this
        simp at this
      have e := Send_form_panic lib run2 s.withClient url method jr hu hm h1 h2'
      simp [Outcome.panicked] at e ⊢
      simp [e, Outcome.built, Outcome.sent]
    · intro b hb
      simp [Outcome.built, Outcome.panicked] at hb
  · rw [h]
    obtain ⟨ht, hlen, hp⟩ := formPayload_frame h2
    have hc : s1.this.sameConfig s.this := by
      rw [ht]; exact refl
    refine ⟨hc, ?_, ?_⟩
    · intro hb
      simp [Outcome.built] at hb
    · intro b hb run2
      simp only [Outcome.built, List.filterMap_cons, List.filterMap_nil, List.cons.injEq,
        and_true] at hb
      rw [← hb]
      apply second jr s1 p h1 hc _ hp run2
      rcases reqOk_of_formPayload h2 with hno | ⟨a, ha, hlt⟩
      · exact Or.inl hno
      · exact Or.inr ⟨a, by rw [ht]; exact ha, by rw [hlen]; exact hlt⟩
  · rw [h]
    obtain ⟨ht, hlen, hp⟩ := formPayload_frame h2
    have hc : (s1.realized (dress run s.this req)).this.sameConfig s.this := by
      simp [realized, Request.sameConfig, ht]
    refine ⟨hc, ?_, ?_⟩
    · intro hb
      simp [Outcome.built] at hb
    · intro b hb run2
      simp only [Outcome.built, List.filterMap_cons, List.filterMap_nil, List.cons.injEq,
        and_true] at hb
      rw [← hb]
      apply second jr _ p h1 hc _ hp run2
      exact Or.inr ⟨s1.heap.length, rfl, by simp [realized]⟩
  · rw [h]
    obtain ⟨ht, hlen, hp⟩ := formPayload_frame h2
    have hc : (s1.realized (dress run s.this req)).this.sameConfig s.this := by
      simp [realized, Request.sameConfig, ht]
    refine ⟨hc, ?_, ?_⟩
    · intro hb
      simp [Outcome.built] at hb
    · intro b hb run2
      simp only [Outcome.built, List.filterMap_cons, List.filterMap_nil, List.cons.injEq,
        and_true] at hb
      rw [← hb]
      apply second jr _ p h1 hc _ hp run2
      exact Or.inr ⟨s1.heap.length, rfl, by simp [realized]⟩

end Curl

namespace Curl

open State

theorem built_nil_or_singleton {V : Type} (lib : Lib V) (run : Run V) (s : State V)
    (url method : String) :
    (s.Send lib run url method).built = [] ∨ ∃ b, (s.Send lib run url method).built = [b] := by
  by_cases hu : url = ""
  · simp [Send, hu, Outcome.built]
  by_cases hm : method = ""
  · simp [Send, hu, hm, Outcome.built]
  rcases Send_cases lib run s url method hu hm with
    ⟨e1, h1, h⟩ | ⟨jr, h1, h2, h⟩ | ⟨jr, s1, p, e1, h1, h2, h3, h⟩ |
    ⟨jr, s1, p, req, e1, h1, h2, h3, h4, h⟩ | ⟨jr, s1, p, req, resp, h1, h2, h3, h4, h⟩
  · simp [h, Outcome.built]
  · simp [h, Outcome.built, Outcome.panicked]
  · simp [h, Outcome.built]
  · simp [h, Outcome.built]
  · simp [h, Outcome.built]

theorem get_applyHeaders_perm (l1 l2 : GoMap String) (h : http.Header) (c : String)
    (hp : l1.Perm l2) (hn : (l2.map (fun kv => http.CanonicalMIMEHeaderKey kv.1)).Nodup) :
    Values.get (applyHeaders l1 h) c = Values.get (applyHeaders l2 h) c := by
  by_cases hex : ∃ kv ∈ l2, http.CanonicalMIMEHeaderKey kv.1 = c
  · obtain ⟨kv, hkv, hc⟩ := hex
    have hall : ∀ x ∈ l2, http.CanonicalMIMEHeaderKey x.1 = c → x.2 = kv.2 := by
      intro x hx hxc
      have : x = kv := List.inj_on_of_nodup_map hn hx hkv (hxc.trans hc.symm)
      rw [this]
    rw [get_applyHeaders_of_mem l2 h c kv.2 ⟨kv, hkv, hc⟩ hall,
      get_applyHeaders_of_mem l1 h c kv.2 ⟨kv, hp.mem_iff.mpr hkv, hc⟩
        (fun x hx => hall x (hp.mem_iff.mp hx))]
  · have hnot : ∀ x ∈ l2, http.CanonicalMIMEHeaderKey x.1 ≠ c := fun x hx hc => hex ⟨x, hx, hc⟩
    rw [get_applyHeaders_of_not_mem l2 h c hnot,
      get_applyHeaders_of_not_mem l1 h c (fun x hx => hnot x (hp.mem_iff.mp hx))]

/-- A request that reaches the client is a new object: `this.req` and `this.Raw` point to
it afterwards, at an address past every object that existed before the call. -/
theorem sent_fresh {V : Type} (lib : Lib V) (run : Run V) (s : State V) (url method : String) :
    ∀ r ∈ (s.Send lib run url method).sent,
      (s.Send lib run url method).state.this.req = some s.heap.length ∧
      (s.Send lib run url method).state.this.Raw = some s.heap.length ∧
      (s.Send lib run url method).state.heap[s.heap.length]? = some r := by
  by_cases hu : url = ""
  · simp [Send, hu, Outcome.sent]
  by_cases hm : method = ""
  · simp [Send, hu, hm, Outcome.sent]
  rcases Send_cases lib run s url method hu hm with
    ⟨e1, h1, h⟩ | ⟨jr, h1, h2, h⟩ | ⟨jr, s1, p, e1, h1, h2, h3, h⟩ |
    ⟨jr, s1, p, req, e1, h1, h2, h3, h4, h⟩ | ⟨jr, s1, p, req, resp, h1, h2, h3, h4, h⟩
  · simp [h, Outcome.sent]
  · simp [h, Outcome.sent, Outcome.panicked]
  · simp [h, Outcome.sent]
  · have hlen : s1.heap.length = s.heap.length := (formPayload_frame h2).2.1
    intro r hr
    simp only [h, Outcome.sent, List.filterMap_cons, List.filterMap_nil,
      List.mem_singleton] at hr
    subst hr
    rw [h, ← hlen]
    simp [realized]
  · have hlen : s1.heap.length = s.heap.length := (formPayload_frame h2).2.1
    intro r hr
    simp only [h, Outcome.sent, List.filterMap_cons, List.filterMap_nil,
      List.mem_singleton] at hr
    subst hr
    rw [h, ← hlen]
    simp [realized]

/-- C8, refuted, twice.  With the two cookies `a=1` and `b=2`, a first `Get`, in which the
runtime visits the maps in the listed order, sends `Cookie: a=1; b=2`; the configuration
is unchanged; a second `Get`, in which the runtime visits them in the reverse order,
sends `Cookie: b=2; a=1`.  With the two header names `x-a` and `X-A`, the first `Get`
sends `X-A: 2` and the second `X-A: 1`. -/
theorem C8_headers_differ_between_sends :
    Demo.online.Fair ∧ Demo.backwards.Fair ∧
    (Demo.twoCookies.Get Demo.lib Demo.online).state.this.Cookies = [("a", "1"), ("b", "2")] ∧
    (Demo.twoCookies.Get Demo.lib Demo.online).sent.map (fun r => r.Header)
      = [some [("Cookie", ["a=1; b=2"])]] ∧
    ((Demo.twoCookies.Get Demo.lib Demo.online).state.Get Demo.lib Demo.backwards).sent.map
      (fun r => r.Header) = [some [("Cookie", ["b=2; a=1"])]] ∧
    (Demo.clash.Get Demo.lib Demo.online).state.this.Headers = [("x-a", "1"), ("X-A", "2")] ∧
    (Demo.clash.Get Demo.lib Demo.online).sent.map (fun r => r.Header)
      = [some [("X-A", ["2"])]] ∧
    ((Demo.clash.Get Demo.lib Demo.online).state.Get Demo.lib Demo.backwards).sent.map
      (fun r => r.Header) = [some [("X-A", ["1"])]] :=
  ⟨Demo.online_fair, Demo.backwards_fair, by decide, by decide, by decide, by decide,
    by decide, by decide⟩

/-- C8, amended: after `Send` or a trigger, whether it succeeds or fails, the fields
`Method`, `Url`, `Headers`, `Cookies`, `Queries`, `PostData` and `PostDataQuery` are what
they were.  A second `Send` with the same arguments calls `http.NewRequest` exactly as
the first did (with the same method, URL and payload, or not at all), and a request it
hands to the client is a new object.  The requests the two calls hand to the client have
the same method, URL with the same final query string, body and host; they are equal
when the runtime visits `Headers` and `Cookies` in the same order in both calls; in
general each carries the cookies, added in the order its call visited them, on top of its
configured headers, and the configured headers, hence all headers other than `Cookie`,
have the same values in both when no two configured names have the same canonical form. -/
theorem C8_builder_reusable {V : Type} (lib : Lib V) (run1 run2 : Run V) (s : State V)
    (url method : String) :
    (∀ o ∈ [s.Send lib run1 url method, s.Get lib run1, s.Post lib run1, s.Put lib run1,
        s.PUT lib run1, s.Delete lib run1, s.PATCH lib run1],
      o.state.this.sameConfig s.this) ∧
    ((s.Send lib run1 url method).state.Send lib run2 url method).built
      = (s.Send lib run1 url method).built ∧
    (∀ r2 ∈ ((s.Send lib run1 url method).state.Send lib run2 url method).sent,
      ((s.Send lib run1 url method).state.Send lib run2 url method).state.this.req
        = some (s.Send lib run1 url method).state.heap.length) ∧
    (run1.Fair → run2.Fair → (s.this.Queries.map Prod.fst).Nodup →
      ∀ r1 ∈ (s.Send lib run1 url method).sent,
      ∀ r2 ∈ ((s.Send lib run1 url method).state.Send lib run2 url method).sent,
        r1.Method = r2.Method ∧ r1.URL = r2.URL ∧ r1.Body = r2.Body ∧ r1.Host = r2.Host ∧
        (run1.rangeHeaders s.this.Headers = run2.rangeHeaders s.this.Headers →
          run1.rangeCookies s.this.Cookies = run2.rangeCookies s.this.Cookies → r1 = r2) ∧
        (∃ h1 h2,
          r1.Header = some (applyCookies (run1.rangeCookies s.this.Cookies) h1) ∧
          r2.Header = some (applyCookies (run2.rangeCookies s.this.Cookies) h2) ∧
          (run1.rangeCookies s.this.Cookies).Perm (run2.rangeCookies s.this.Cookies) ∧
          ((s.this.Headers.map (fun kv => http.CanonicalMIMEHeaderKey kv.1)).Nodup →
            ∀ c, Values.get h1 c = Values.get h2 c)) ∧
        ((s.this.Headers.map (fun kv => http.CanonicalMIMEHeaderKey kv.1)).Nodup →
          ∃ h1 h2, r1.Header = some h1 ∧ r2.Header = some h2 ∧
            ∀ c, c ≠ "Cookie" → Values.get h1 c = Values.get h2 c)) := by
  refine ⟨?_, ?_, ?_, ?_⟩
  · intro o ho
    simp only [List.mem_cons, List.mem_singleton, List.not_mem_nil, or_false] at ho
    rcases ho with rfl | rfl | rfl | rfl | rfl | rfl | rfl
    · exact (Send_state lib run1 s url method).1
    · exact (Send_state lib run1 s s.this.Url "GET").1
    · exact (Send_state lib run1 s s.this.Url "POST").1
    · exact (Send_state lib run1 s s.this.Url "PUT").1
    · exact (Send_state lib run1 s s.this.Url "PUT").1
    · exact (Send_state lib run1 s s.this.Url "DELETE").1
    · exact (Send_state lib run1 s s.this.Url "PATCH").1
  · rcases built_nil_or_singleton lib run1 s url method with h | ⟨b, h⟩
    · rw [h]
      exact (((Send_state lib run1 s url method).2.1 h) run2).1
    · rw [h]
      exact (Send_state lib run1 s url method).2.2 b h run2
  · intro r2 hr2
    exact (sent_fresh lib run2 _ url method r2 hr2).1
  · intro hf1 hf2 hmap r1 hr1 r2 hr2
    have hc := (Send_state lib run1 s url method).1
    obtain ⟨u1, hu1, e1⟩ := sent_eq lib run1 s url method r1 hr1
    obtain ⟨u2, hu2, e2⟩ := sent_eq lib run2 _ url method r2 hr2
    rw [hu1] at hu2
    simp only [Except.ok.injEq] at hu2
    subst hu2
    rw [payload_congr lib s _ method hc, dress_congr run2 _ s.this _ hc] at e2
    have hq : Curl.url.Encode (applyQueries (run1.rangeQueries s.this.Queries) u1.Query) =
        Curl.url.Encode (applyQueries (run2.rangeQueries s.this.Queries) u1.Query) := by
      apply Encode_applyQueries_perm
      · exact (hf1.2.2.1 _).trans (hf2.2.2.1 _).symm
      · exact ((hf2.2.2.1 s.this.Queries).map Prod.fst).nodup_iff.mpr hmap
    have hheaders : (s.this.Headers.map (fun kv => http.CanonicalMIMEHeaderKey kv.1)).Nodup →
        ∀ c, Values.get (applyHeaders (run1.rangeHeaders s.this.Headers) []) c =
          Values.get (applyHeaders (run2.rangeHeaders s.this.Headers) []) c := by
      intro hn c
      apply get_applyHeaders_perm
      · exact (hf1.1 _).trans (hf2.1 _).symm
      · exact ((hf2.1 s.this.Headers).map _).nodup_iff.mpr hn
    refine ⟨by rw [e1, e2]; rfl, ?_, by rw [e1, e2]; rfl, by rw [e1, e2]; rfl, ?_, ?_, ?_⟩
    · rw [e1, e2]
      simp only [dress, Option.map_some', hq]
    · intro hh hk
      rw [e1, e2]
      simp only [dress, Option.map_some', hq, hh, hk]
    · exact ⟨_, _, by rw [e1]; rfl, by rw [e2]; rfl,
        (hf1.2.1 _).trans (hf2.2.1 _).symm, hheaders⟩
    · intro hn
      refine ⟨_, _, by rw [e1]; rfl, by rw [e2]; rfl, ?_⟩
      intro c hcne
      rw [get_applyCookies_of_ne _ _ hcne, get_applyCookies_of_ne _ _ hcne]
      exact hheaders hn c

/-- C8, amended, on a builder with the header `X-Test: v`, sent twice, the runtime visiting
the maps in opposite orders. -/
theorem C8_builder_reusable_witness :
    (Demo.online.Fair ∧ Demo.backwards.Fair ∧ (Demo.withHeader.this.Queries.map Prod.fst).Nodup) ∧
    (Demo.withHeader.Send Demo.lib Demo.online "http://host/path" "GET").sent.length = 1 ∧
    ((Demo.withHeader.Send Demo.lib Demo.online "http://host/path" "GET").state.Send Demo.lib
      Demo.backwards "http://host/path" "GET").sent.length = 1 ∧
    ∀ r1 ∈ (Demo.withHeader.Send Demo.lib Demo.online "http://host/path" "GET").sent,
    ∀ r2 ∈ ((Demo.withHeader.Send Demo.lib Demo.online "http://host/path" "GET").state.Send
        Demo.lib Demo.backwards "http://host/path" "GET").sent,
      r1.Method = r2.Method ∧ r1.URL = r2.URL ∧ r1.Body = r2.Body ∧ r1.Host = r2.Host ∧
      (Demo.online.rangeHeaders Demo.withHeader.this.Headers
          = Demo.backwards.rangeHeaders Demo.withHeader.this.Headers →
        Demo.online.rangeCookies Demo.withHeader.this.Cookies
          = Demo.backwards.rangeCookies Demo.withHeader.this.Cookies → r1 = r2) ∧
      (∃ h1 h2,
        r1.Header = some (applyCookies (Demo.online.rangeCookies Demo.withHeader.this.Cookies) h1) ∧
        r2.Header
          = some (applyCookies (Demo.backwards.rangeCookies Demo.withHeader.this.Cookies) h2) ∧
        (Demo.online.rangeCookies Demo.withHeader.this.Cookies).Perm
          (Demo.backwards.rangeCookies Demo.withHeader.this.Cookies) ∧
        ((Demo.withHeader.this.Headers.map (fun kv => http.CanonicalMIMEHeaderKey kv.1)).Nodup →
          ∀ c, Values.get h1 c = Values.get h2 c)) ∧
      ((Demo.withHeader.this.Headers.map (fun kv => http.CanonicalMIMEHeaderKey kv.1)).Nodup →
        ∃ h1 h2, r1.Header = some h1 ∧ r2.Header = some h2 ∧
          ∀ c, c ≠ "Cookie" → Values.get h1 c = Values.get h2 c) :=
  ⟨⟨Demo.online_fair, Demo.backwards_fair, by decide⟩, by decide, by decide,
    (C8_builder_reusable Demo.lib Demo.online Demo.backwards Demo.withHeader "http://host/path"
      "GET").2.2.2 Demo.online_fair Demo.backwards_fair (by decide)⟩

end Curl

namespace Curl

namespace url

/-! ### Reading back an encoded query -/

theorem upperhex_lt (d : Nat) (hd : d < 16) :
    ishex (upperhex d) = true ∧ unhex (upperhex d) = d := by
  interval_cases d <;> decide

theorem upperhex_plain (n : Nat) :
    upperhex n ≠ '&' ∧ upperhex n ≠ ';' ∧ upperhex n ≠ '=' := by
  by_cases h : n < 16
  · interval_cases n <;> decide
  · have : upperhex n = '0' := by
      unfold upperhex
      apply List.getD_eq_default
      simp only [List.length_cons, List.length_nil]
      omega
    rw [this]
    decide

theorem unreserved_plain (c : Char) (h : unreserved c = true) :
    c ≠ '&' ∧ c ≠ ';' ∧ c ≠ '=' ∧ c ≠ '%' ∧ c ≠ '+' := by
  refine ⟨?_, ?_, ?_, ?_, ?_⟩ <;> (intro e; subst e; revert h; decide)

theorem escapeBytes_plain (l : List Char) :
    ∀ c ∈ escapeBytes l, c ≠ '&' ∧ c ≠ ';' ∧ c ≠ '=' := by
  induction l with
  | nil => simp [escapeBytes]
  | cons x xs ih =>
    intro c hc
    unfold escapeBytes at hc
    split at hc
    · rcases List.mem_cons.mp hc with rfl | h
      · decide
      · exact ih c h
    · split at hc
      · rename_i hu
        rcases List.mem_cons.mp hc with rfl | h
        · have := unreserved_plain c hu
          exact ⟨this.1, this.2.1, this.2.2.1⟩
        · exact ih c h
      · simp only [List.mem_cons] at hc
        rcases hc with rfl | rfl | rfl | h
        · decide
        · exact upperhex_plain _
        · exact upperhex_plain _
        · exact ih c h

theorem unescape_escape (l : List Char) (hb : ∀ c ∈ l, c.toNat < 256) :
    unescapeBytes (escapeBytes l) = some l := by
  induction l with
  | nil => simp [escapeBytes, unescapeBytes]
  | cons x xs ih =>
    have ih' := ih (fun c hc => hb c (List.mem_cons_of_mem _ hc))
    have hx := hb x (List.mem_cons_self _ _)
    unfold escapeBytes
    split
    · rename_i hsp
      subst hsp
      unfold unescapeBytes
      simp [ih']
    · split
      · rename_i hu
        have hp := unreserved_plain x hu
        unfold unescapeBytes
        simp [hp.2.2.2.1, hp.2.2.2.2, ih']
      · unfold unescapeBytes
        have h1 := upperhex_lt (x.toNat / 16) (by omega)
        have h2 := upperhex_lt (x.toNat % 16) (by omega)
        simp only [if_true, h1.1, h2.1, Bool.and_self, h1.2, h2.2, ih', Option.map_some',
          Option.some.injEq, List.cons.injEq, and_true]
        have : x.toNat / 16 * 16 + x.toNat % 16 = x.toNat := by omega
        rw [this, Char.ofNat_toNat]

end url

end Curl

namespace Curl

namespace url

theorem cut_append (sep : Char) (a b : List Char) (h : ∀ c ∈ a, c ≠ sep) :
    cut sep (a ++ sep :: b) = (a, b) := by
  induction a with
  | nil => simp [cut]
  | cons x xs ih =>
    have hx : x ≠ sep := h x (List.mem_cons_self _ _)
    have := ih (fun c hc => h c (List.mem_cons_of_mem _ hc))
    simp [cut, hx, this]

theorem segments_single (s : List Char) (hne : s ≠ []) (h : ∀ c ∈ s, c ≠ '&') :
    segments s = [s] := by
  induction s with
  | nil => exact absurd rfl hne
  | cons x xs ih =>
    have hx : x ≠ '&' := h x (List.mem_cons_self _ _)
    cases xs with
    | nil => simp [segments, hx]
    | cons y ys =>
      have := ih (by simp) (fun c hc => h c (List.mem_cons_of_mem _ hc))
      simp only [segments, hx, if_false] at this ⊢
      rw [this]

theorem segments_append (s t : List Char) (h : ∀ c ∈ s, c ≠ '&') :
    segments (s ++ '&' :: t) = s :: segments t := by
  induction s with
  | nil => simp [segments]
  | cons x xs ih =>
    have hx : x ≠ '&' := h x (List.mem_cons_self _ _)
    have := ih (fun c hc => h c (List.mem_cons_of_mem _ hc))
    show segments (x :: (xs ++ '&' :: t)) = (x :: xs) :: segments t
    simp only [segments, hx, if_false]
    rw [this]

theorem segments_joinAmp (segs : List (List Char))
    (h : ∀ s ∈ segs, s ≠ [] ∧ ∀ c ∈ s, c ≠ '&') : segments (joinAmp segs) = segs := by
  induction segs with
  | nil => simp [joinAmp, segments]
  | cons s rest ih =>
    have hs := h s (List.mem_cons_self _ _)
    cases rest with
    | nil => simpa [joinAmp] using segments_single s hs.1 hs.2
    | cons s2 rest2 =>
      have := ih (fun t ht => h t (List.mem_cons_of_mem _ ht))
      simp only [joinAmp] at this ⊢
      rw [segments_append _ _ hs.2, this]

theorem encodePair_ok (kx : String × String) :
    encodePair kx ≠ [] ∧ ∀ c ∈ encodePair kx, c ≠ '&' ∧ c ≠ ';' := by
  constructor
  · simp [encodePair]
  · intro c hc
    simp only [encodePair, List.mem_append, List.mem_cons] at hc
    rcases hc with h | rfl | h
    · exact ⟨(escapeBytes_plain _ c h).1, (escapeBytes_plain _ c h).2.1⟩
    · decide
    · exact ⟨(escapeBytes_plain _ c h).1, (escapeBytes_plain _ c h).2.1⟩

theorem parseSegment_encodePair (m : Values) (kx : String × String)
    (hb : IsBytes kx.1 ∧ IsBytes kx.2) :
    parseSegment m (encodePair kx) = m.Add kx.1 kx.2 := by
  have hok := encodePair_ok kx
  have h1 : (encodePair kx).contains ';' = false := by
    rw [Bool.eq_false_iff]
    intro hc
    have hm : ';' ∈ encodePair kx := by simpa using hc
    exact (hok.2 _ hm).2 rfl
  have hcut : cut '=' (encodePair kx) = (escapeBytes kx.1.data, escapeBytes kx.2.data) :=
    cut_append '=' _ _ (fun c hc => (escapeBytes_plain _ c hc).2.2)
  unfold parseSegment
  simp only [h1, Bool.false_eq_true, if_false, hok.1, hcut, unescape_escape _ hb.1,
    unescape_escape _ hb.2]

theorem foldl_parseSegment (l : List (String × String))
    (hb : ∀ kx ∈ l, IsBytes kx.1 ∧ IsBytes kx.2) (m : Values) :
    (l.map encodePair).foldl parseSegment m = applyQueries l m := by
  induction l generalizing m with
  | nil => rfl
  | cons x xs ih =>
    simp only [List.map_cons, List.foldl_cons]
    rw [parseSegment_encodePair m x (hb x (List.mem_cons_self _ _)),
      ih (fun kx hkx => hb kx (List.mem_cons_of_mem _ hkx))]
    rfl

end url

namespace Values

theorem get_eq_nil_of_not_mem (v : Values) (k : String) (h : k ∉ v.keys) : v.get k = [] := by
  induction v with
  | nil => rfl
  | cons hd tl ih =>
    obtain ⟨k1, vs⟩ := hd
    simp only [keys, List.map_cons, List.mem_cons, not_or] at h
    have hne : ¬ k1 = k := fun e => h.1 e.symm
    simp only [get, hne, if_false]
    exact ih h.2

theorem mem_of_mem_get (v : Values) (k x : String) (h : x ∈ v.get k) :
    ∃ vs, (k, vs) ∈ v ∧ x ∈ vs := by
  induction v with
  | nil => simp [get] at h
  | cons hd tl ih =>
    obtain ⟨k1, vs⟩ := hd
    by_cases e : k1 = k
    · subst e
      simp only [get, if_true] at h
      exact ⟨vs, List.mem_cons_self _ _, h⟩
    · simp only [get, e, if_false] at h
      obtain ⟨ws, hw, hx⟩ := ih h
      exact ⟨ws, List.mem_cons_of_mem _ hw, hx⟩

end Values

theorem configured_append (l1 l2 : GoMap String) (k : String) :
    configured (l1 ++ l2) k = configured l1 k ++ configured l2 k := by
  simp [configured]

theorem configured_block (k0 k : String) (vs : List String) :
    configured (vs.map (fun x => (k0, x))) k = if k0 = k then vs else [] := by
  induction vs with
  | nil => simp [configured]
  | cons x xs ih =>
    by_cases h : k0 = k
    · simp only [h, if_true] at ih ⊢
      simp only [configured, List.map_cons, List.filter_cons, decide_True, if_true] at ih ⊢
      rw [ih]
    · simp only [h, if_false] at ih ⊢
      simp only [configured, List.map_cons, List.filter_cons, h, decide_False] at ih ⊢
      exact ih

theorem configured_blocks (v : Values) (ks : List String) (hn : ks.Nodup) (k : String) :
    configured (ks.flatMap (fun k0 => (v.get k0).map (fun x => (k0, x)))) k =
      if k ∈ ks then v.get k else [] := by
  induction ks with
  | nil => simp [configured]
  | cons k0 rest ih =>
    simp only [List.flatMap_cons, configured_append, configured_block]
    rw [ih (List.nodup_cons.mp hn).2]
    by_cases h : k0 = k
    · subst h
      have : k0 ∉ rest := (List.nodup_cons.mp hn).1
      simp [this]
    · have h' : ¬ k = k0 := fun e => h e.symm
      simp [h, h']

/-- Parsing the text `Encode` wrote gives every key the values it had. -/
theorem ParseQuery_Encode (v : Values) (hn : v.keys.Nodup) (hb : v.IsBytes) (k : String) :
    (url.ParseQuery (url.Encode v)).get k = v.get k := by
  have hperm : (url.sortedKeys v).Perm v.keys := List.perm_insertionSort _ _
  have hbytes : ∀ kx ∈ url.pairs v, IsBytes kx.1 ∧ IsBytes kx.2 := by
    intro kx hkx
    simp only [url.pairs, List.mem_flatMap, List.mem_map] at hkx
    obtain ⟨k0, _, x, hx, rfl⟩ := hkx
    obtain ⟨vs, hmem, hxs⟩ := Values.mem_of_mem_get v k0 x hx
    exact ⟨(hb _ hmem).1, (hb _ hmem).2 x hxs⟩
  have hseg : url.segments (url.Encode v).data = (url.pairs v).map url.encodePair := by
    apply url.segments_joinAmp
    intro s hs
    obtain ⟨kx, _, rfl⟩ := List.mem_map.mp hs
    exact ⟨(url.encodePair_ok kx).1, fun c hc => ((url.encodePair_ok kx).2 c hc).1⟩
  unfold url.ParseQuery
  rw [hseg, url.foldl_parseSegment _ hbytes, get_applyQueries]
  simp only [Values.get, List.nil_append]
  unfold url.pairs
  rw [configured_blocks v _ (hperm.nodup_iff.mpr hn)]
  by_cases hk : k ∈ url.sortedKeys v
  · simp [hk]
  · simp only [hk, if_false]
    exact (Values.get_eq_nil_of_not_mem v k (fun h => hk (hperm.mem_iff.mpr h))).symm

end Curl

namespace Curl

namespace url

theorem toNat_ofNat_byte (n : Nat) (h : n < 256) : (Char.ofNat n).toNat = n := by
  have hv : n.isValidChar := Or.inl (by omega)
  simp only [Char.ofNat, hv, Char.ofNatAux, Char.toNat, dite_true]
  show (BitVec.ofNatLt n _).toNat = n
  simp

theorem unhex_le (c : Char) : unhex c ≤ 15 := by
  unfold unhex
  split
  · rename_i h
    simp only [Char.isDigit, Bool.and_eq_true, decide_eq_true_eq] at h
    have h2 : c.toNat ≤ 57 := h.2
    have e : '0'.toNat = 48 := rfl
    omega
  · split
    · rename_i h
      simp only [Bool.and_eq_true, decide_eq_true_eq] at h
      have h2 : c.toNat ≤ 102 := h.2
      have e : 'a'.toNat = 97 := rfl
      omega
    · split
      · rename_i h
        simp only [Bool.and_eq_true, decide_eq_true_eq] at h
        have h2 : c.toNat ≤ 70 := h.2
        have e : 'A'.toNat = 65 := rfl
        omega
      · omega

theorem unescapeBytes_bytes (n : Nat) : ∀ (l t : List Char), l.length ≤ n →
    unescapeBytes l = some t → (∀ c ∈ l, c.toNat < 256) → ∀ c ∈ t, c.toNat < 256 := by
  induction n with
  | zero =>
    intro l t hl h _
    have : l = [] := List.length_eq_zero.mp (by omega)
    subst this
    simp [unescapeBytes] at h
    subst h
    simp
  | succ n ih =>
    intro l t hl h hb
    cases l with
    | nil =>
      simp [unescapeBytes] at h
      subst h
      simp
    | cons x xs =>
      have hxs : ∀ c ∈ xs, c.toNat < 256 := fun c hc => hb c (List.mem_cons_of_mem _ hc)
      unfold unescapeBytes at h
      split at h
      · split at h
        · rename_i a b rest
          split at h
          · simp only [Option.map_eq_some'] at h
            obtain ⟨t1, ht1, rfl⟩ := h
            have hlen : rest.length ≤ n := by
              simp only [List.length_cons] at hl
              omega
            have := ih rest t1 hlen ht1
              (fun c hc => hxs c (List.mem_cons_of_mem _ (List.mem_cons_of_mem _ hc)))
            intro c hc
            rcases List.mem_cons.mp hc with rfl | hc
            · have ha := unhex_le a
              have hb2 := unhex_le b
              rw [toNat_ofNat_byte _ (by omega)]
              omega
            · exact this c hc
          · simp at h
        · simp at h
      · have hlen : xs.length ≤ n := by
          simp only [List.length_cons] at hl
          omega
        split at h
        · simp only [Option.map_eq_some'] at h
          obtain ⟨t1, ht1, rfl⟩ := h
          have := ih xs t1 hlen ht1 hxs
          intro c hc
          rcases List.mem_cons.mp hc with rfl | hc
          · decide
          · exact this c hc
        · simp only [Option.map_eq_some'] at h
          obtain ⟨t1, ht1, rfl⟩ := h
          have := ih xs t1 hlen ht1 hxs
          intro c hc
          rcases List.mem_cons.mp hc with rfl | hc
          · exact hb c (List.mem_cons_self _ _)
          · exact this c hc

theorem mem_cut (sep : Char) (l : List Char) :
    (∀ c ∈ (cut sep l).1, c ∈ l) ∧ (∀ c ∈ (cut sep l).2, c ∈ l) := by
  induction l with
  | nil => simp [cut]
  | cons x xs ih =>
    unfold cut
    split
    · exact ⟨by simp, fun c hc => List.mem_cons_of_mem _ hc⟩
    · constructor
      · intro c hc
        rcases List.mem_cons.mp hc with rfl | hc
        · exact List.mem_cons_self _ _
        · exact List.mem_cons_of_mem _ (ih.1 c hc)
      · intro c hc
        exact List.mem_cons_of_mem _ (ih.2 c hc)

theorem mem_segments (l : List Char) : ∀ seg ∈ segments l, ∀ c ∈ seg, c ∈ l := by
  induction l with
  | nil => simp [segments]
  | cons x xs ih =>
    intro seg hseg c hc
    unfold segments at hseg
    split at hseg
    · rcases List.mem_cons.mp hseg with rfl | h
      · simp at hc
      · exact List.mem_cons_of_mem _ (ih seg h c hc)
    · split at hseg
      · simp only [List.mem_singleton] at hseg
        subst hseg
        simp only [List.mem_singleton] at hc
        subst hc
        exact List.mem_cons_self _ _
      · rename_i s0 segs heq
        rcases List.mem_cons.mp hseg with rfl | h
        · rcases List.mem_cons.mp hc with rfl | hc
          · exact List.mem_cons_self _ _
          · exact List.mem_cons_of_mem _ (ih s0 (by rw [heq]; exact List.mem_cons_self _ _) c hc)
        · exact List.mem_cons_of_mem _
            (ih seg (by rw [heq]; exact List.mem_cons_of_mem _ h) c hc)

end url

namespace Values

theorem mem_put (v : Values) (k : String) (vs : List String) :
    ∀ kv ∈ v.put k vs, kv ∈ v ∨ kv = (k, vs) := by
  induction v with
  | nil => simp [put]
  | cons hd tl ih =>
    obtain ⟨k1, ws⟩ := hd
    intro kv hkv
    unfold put at hkv
    split at hkv
    · rename_i e
      rcases List.mem_cons.mp hkv with rfl | h
      · exact Or.inr (by rw [e])
      · exact Or.inl (List.mem_cons_of_mem _ h)
    · rcases List.mem_cons.mp hkv with rfl | h
      · exact Or.inl (List.mem_cons_self _ _)
      · rcases ih kv h with h1 | h1
        · exact Or.inl (List.mem_cons_of_mem _ h1)
        · exact Or.inr h1

theorem isBytes_Add (v : Values) (k x : String) (hv : v.IsBytes) (hk : Curl.IsBytes k)
    (hx : Curl.IsBytes x) : (v.Add k x).IsBytes := by
  intro kv hkv
  rcases mem_put v k _ kv hkv with h | rfl
  · exact hv kv h
  · refine ⟨hk, ?_⟩
    intro y hy
    rcases List.mem_append.mp hy with h | h
    · obtain ⟨vs, hmem, hys⟩ := mem_of_mem_get v k y h
      exact (hv _ hmem).2 y hys
    · simp only [List.mem_singleton] at h
      rw [h]
      exact hx

end Values

theorem isBytes_applyQueries (l : GoMap String) (q : Values) (hq : q.IsBytes)
    (hl : ∀ kv ∈ l, IsBytes kv.1 ∧ IsBytes kv.2) : (applyQueries l q).IsBytes := by
  induction l generalizing q with
  | nil => exact hq
  | cons x xs ih =>
    have hx := hl x (List.mem_cons_self _ _)
    exact ih _ (Values.isBytes_Add q x.1 x.2 hq hx.1 hx.2)
      (fun kv hkv => hl kv (List.mem_cons_of_mem _ hkv))

theorem isBytes_ParseQuery (query : String) (h : IsBytes query) :
    (url.ParseQuery query).IsBytes := by
  unfold url.ParseQuery
  have key : ∀ (segs : List (List Char)) (m : Values), m.IsBytes →
      (∀ seg ∈ segs, ∀ c ∈ seg, c.toNat < 256) →
      (segs.foldl url.parseSegment m).IsBytes := by
    intro segs
    induction segs with
    | nil => exact fun m hm _ => hm
    | cons x xs ih =>
      intro m hm hs
      apply ih _ _ (fun seg hseg => hs seg (List.mem_cons_of_mem _ hseg))
      have hx := hs x (List.mem_cons_self _ _)
      unfold url.parseSegment
      split
      · exact hm
      · split
        · exact hm
        · split
          · rename_i k v hk hv
            apply Values.isBytes_Add _ _ _ hm
            · exact url.unescapeBytes_bytes _ _ _ (Nat.le_refl _) hk
                (fun c hc => hx c ((url.mem_cut '=' x).1 c hc))
            · exact url.unescapeBytes_bytes _ _ _ (Nat.le_refl _) hv
                (fun c hc => hx c ((url.mem_cut '=' x).2 c hc))
          · exact hm
  apply key
  · intro kv hkv
    simp at hkv
  · intro seg hseg c hc
    exact h c (url.mem_segments _ seg hseg c hc)

end Curl

namespace Curl

open State

/-- C5, refuted: `URL.Query()` silently discards the segments of the query it cannot
parse.  For the URL `http://host/path?a;b=1&c=2` it keeps the pair `c: 2` only, and with
the query `q` configured with the value `a b&c` the request sent has the query string
`c=2&q=a+b%26c`: the segment `a;b=1` of the URL is gone.  For the URL
`http://host/path?a=%zz&y=2`, with nothing configured, the request sent has the query
string `y=2`: the segment `a=%zz` is gone. -/
theorem C5_unparsed_segments_dropped :
    url.segments "a;b=1&c=2".data = ["a;b=1".data, "c=2".data] ∧
    url.ParseQuery "a;b=1&c=2" = [("c", ["2"])] ∧
    (Demo.oddQuery.Get Demo.lib Demo.online).sent.map
      (fun r => r.URL.map (fun u => u.RawQuery)) = [some "c=2&q=a+b%26c"] ∧
    url.ParseQuery "c=2&q=a+b%26c" = [("c", ["2"]), ("q", ["a b&c"])] ∧
    url.segments "a=%zz&y=2".data = ["a=%zz".data, "y=2".data] ∧
    url.ParseQuery "a=%zz&y=2" = [("y", ["2"])] ∧
    (Demo.badEscape.Get Demo.lib Demo.online).sent.map
      (fun r => r.URL.map (fun u => u.RawQuery)) = [some "y=2"] :=
  ⟨by decide, by decide, by decide, by decide, by decide, by decide, by decide⟩

/-- C5, amended: in the URL of a request that reaches the client, the query string is the
encoding `q.Encode()` of values `q` in which every key has the values `URL.Query()` parsed
for it from the query of the URL string, in their order, followed by the configured value
if the key is configured: the pairs `URL.Query()` parsed are all kept, every configured
pair is there, and a configured key that the URL already has gets a further value.  The
final query string holds exactly these pairs: for strings that are byte sequences, as all
Go strings are, parsing it gives every key the values it has in `q`, so a segment of the
URL's query that `URL.Query()` discarded is not carried over. -/
theorem C5_queries_merged {V : Type} (lib : Lib V) (run : Run V) (s : State V)
    (url method : String) (hfair : run.Fair)
    (hmap : (s.this.Queries.map Prod.fst).Nodup) :
    ∀ r ∈ (s.Send lib run url method).sent, ∃ u q, lib.urlParse url = .ok u ∧
      r.URL = some { u with RawQuery := Curl.url.Encode q } ∧
      (∀ k v, (k, v) ∈ s.this.Queries → q.get k = u.Query.get k ++ [v]) ∧
      (∀ k, k ∉ s.this.Queries.map Prod.fst → q.get k = u.Query.get k) ∧
      (IsBytes u.RawQuery → (∀ kv ∈ s.this.Queries, IsBytes kv.1 ∧ IsBytes kv.2) →
        ∀ k, (Curl.url.ParseQuery (Curl.url.Encode q)).get k = q.get k) := by
  intro r hr
  obtain ⟨u, hu, e⟩ := sent_eq lib run s url method r hr
  refine ⟨u, applyQueries (run.rangeQueries s.this.Queries) u.Query, hu, ?_, ?_, ?_, ?_⟩
  · rw [e]; rfl
  · intro k v hkv
    rw [get_applyQueries, configured_perm (hfair.2.2.1 _) hmap, configured_of_mem hmap hkv]
  · intro k hk
    rw [get_applyQueries, configured_perm (hfair.2.2.1 _) hmap, configured_of_not_mem hk]
    simp
  · intro hb1 hb2 k
    apply ParseQuery_Encode
    · exact nodup_keys_applyQueries _ _ (nodup_keys_ParseQuery _)
    · exact isBytes_applyQueries _ _ (isBytes_ParseQuery _ hb1)
        (fun kv hkv => hb2 kv ((hfair.2.2.1 _).mem_iff.mp hkv))

/-- C5, amended, on the queries `x: 1` against `http://host/path?y=2`: the request sent has
the query string `x=1&y=2`, which parses into `x: 1` and `y: 2`. -/
theorem C5_queries_merged_witness :
    (Demo.online.Fair ∧ (Demo.withQuery.this.Queries.map Prod.fst).Nodup) ∧
    (Demo.withQuery.Get Demo.lib Demo.online).sent.map (fun r => r.URL.map (fun u => u.RawQuery))
      = [some "x=1&y=2"] ∧
    (url.ParseQuery "x=1&y=2" = [("x", ["1"]), ("y", ["2"])]) ∧
    ∀ r ∈ (Demo.withQuery.Send Demo.lib Demo.online "http://host/path?y=2" "GET").sent,
      ∃ u q, Demo.lib.urlParse "http://host/path?y=2" = .ok u ∧
        r.URL = some { u with RawQuery := url.Encode q } ∧
        (∀ k v, (k, v) ∈ Demo.withQuery.this.Queries → q.get k = u.Query.get k ++ [v]) ∧
        (∀ k, k ∉ Demo.withQuery.this.Queries.map Prod.fst → q.get k = u.Query.get k) ∧
        (IsBytes u.RawQuery →
          (∀ kv ∈ Demo.withQuery.this.Queries, IsBytes kv.1 ∧ IsBytes kv.2) →
          ∀ k, (url.ParseQuery (url.Encode q)).get k = q.get k) :=
  ⟨⟨Demo.online_fair, by decide⟩, by decide, by decide,
    C5_queries_merged Demo.lib Demo.online Demo.withQuery "http://host/path?y=2" "GET"
      Demo.online_fair (by decide)⟩

end Curl
